import Mathlib

/-!
Verification of the crawler / cleaner / chunker core of the `aaa-web`
repository (src/services/text_cleaner.py, src/services/scraper.py,
src/app.py) against its natural-language specification.

Python strings are modelled as `List Char` (`PyStr`).  External
collaborators (the HTTP client `requests`, the HTML parser
`BeautifulSoup`, `urllib.parse.urljoin`, and the wall clock) are taken as
explicit parameters of the functions that use them; everything the
repository itself implements is transcribed from the source.
-/

set_option maxHeartbeats 1000000

abbrev PyStr := List Char

/-- Characters stripped by Python's `str.strip()` (the `str.isspace`
whitespace set). -/
def isPySpace (c : Char) : Bool :=
  let n := c.toNat
  (0x9 ≤ n && n ≤ 0xd) || (0x1c ≤ n && n ≤ 0x1f) || n = 0x20 || n = 0x85 ||
    n = 0xa0 || n = 0x1680 || (0x2000 ≤ n && n ≤ 0x200a) || n = 0x2028 ||
    n = 0x2029 || n = 0x202f || n = 0x205f || n = 0x3000

/-- The characters matched by the regex class `[ \t]` of `_WS_RE`. -/
def isWsChar (c : Char) : Bool := c = ' ' || c = '\t'

/-- Python `str.lstrip()` (for the default whitespace argument). -/
def pyLStrip (l : PyStr) : PyStr := l.dropWhile isPySpace

/-- Python `str.rstrip()`. -/
def pyRStrip (l : PyStr) : PyStr := (l.reverse.dropWhile isPySpace).reverse

/-- Python `str.strip()`. -/
def pyStrip (l : PyStr) : PyStr := pyRStrip (pyLStrip l)

/-- Worker for `collapseRuns`: `inRun` records whether the previous
character belonged to a run being collapsed. -/
def collapseRunsAux (p : Char → Bool) (repl : Char) : Bool → PyStr → PyStr
  | _, [] => []
  | inRun, c :: rest =>
    if p c then
      if inRun then collapseRunsAux p repl true rest
      else repl :: collapseRunsAux p repl true rest
    else c :: collapseRunsAux p repl false rest

/-- `re.sub(cls+, repl, s)` for a one-character-class regex: every maximal
run of characters satisfying `p` is replaced by the single character
`repl`. -/
def collapseRuns (p : Char → Bool) (repl : Char) (l : PyStr) : PyStr :=
  collapseRunsAux p repl false l

/-- `_WS_RE.sub(" ", line)`: collapse runs of spaces and tabs to one
space (text_cleaner.py line 26). -/
def collapseWS (l : PyStr) : PyStr := collapseRuns isWsChar ' ' l

/-- `text.replace("\r\n", "\n")`: leftmost scan replacing CRLF pairs. -/
def replaceCRLF : PyStr → PyStr
  | [] => []
  | [c] => [c]
  | c :: d :: rest =>
    if c = '\r' ∧ d = '\n' then '\n' :: replaceCRLF rest
    else c :: replaceCRLF (d :: rest)

/-- `.replace("\r", "\n")` (single-character replace is a map). -/
def replaceCR (l : PyStr) : PyStr := l.map fun c => if c = '\r' then '\n' else c

/-- `text.replace("\r\n", "\n").replace("\r", "\n")` (text_cleaner.py
line 21). -/
def normNL (l : PyStr) : PyStr := replaceCR (replaceCRLF l)

/-- Python `s.split("\n")` on the character list. -/
def splitOnNL : PyStr → List PyStr
  | [] => [[]]
  | c :: rest =>
    if c = '\n' then [] :: splitOnNL rest
    else
      match splitOnNL rest with
      | [] => [[c]]
      | g :: gs => (c :: g) :: gs

/-- Python `"\n".join(lines)`. -/
def joinNL : List PyStr → PyStr
  | [] => []
  | [l] => l
  | l :: ls => l ++ '\n' :: joinNL ls

/-- The regex `[0-9]|[.,;:()]` from text_cleaner.py line 30: a line is
"meaningful" when some character is a digit or listed punctuation. -/
def isMeaningfulChar (c : Char) : Bool :=
  c.isDigit || c = '.' || c = ',' || c = ';' || c = ':' || c = '(' || c = ')'

/-- The per-line processing of `clean_text` (text_cleaner.py lines
25-32): collapse space/tab runs, strip, drop the line when empty or when
it is shorter than 25 characters without a digit or punctuation. -/
def processLine (l : PyStr) : Option PyStr :=
  let l2 := pyStrip (collapseWS l)
  if l2 = [] then none
  else if l2.length < 25 && !(l2.any isMeaningfulChar) then none
  else some l2

/-- Worker for `collapseNL`: `k` counts how many newlines of the current
run have been emitted (capped at 2). -/
def collapseNLAux : Nat → PyStr → PyStr
  | _, [] => []
  | k, c :: rest =>
    if c = '\n' then
      if k < 2 then '\n' :: collapseNLAux (k + 1) rest
      else collapseNLAux k rest
    else c :: collapseNLAux 0 rest

/-- `_MULTI_NL_RE.sub("\n\n", t)`: the regex `\n{2,}` replaces every run
of two or more newlines with exactly two (text_cleaner.py line 37). -/
def collapseNL (l : PyStr) : PyStr := collapseNLAux 0 l

/-- `clean_text` (text_cleaner.py lines 10-39). -/
def cleanText (text : PyStr) : PyStr :=
  if text = [] then []
  else
    let t := normNL text
    let lines := (splitOnNL t).filterMap processLine
    pyStrip (collapseNL (joinNL lines))

-- sanity examples (spec-independent smoke tests of the embedding)
example : cleanText (("Hello, world.").toList) = ("Hello, world.").toList := by decide
example : cleanText (("ab").toList) = [] := by decide

/-! ## The chunker (text_cleaner.py lines 42-134) -/

/-- The `while start < n` loop of `_chunk_by_chars` (text_cleaner.py
lines 61-68).  `t` is the stripped text, `maxN` the (positive) chunk
size, `step` the (positive) stride; Python's slice `t[start:end]` is
`(t.drop start).take (end - start)`. -/
def chunkLoop (t : PyStr) (maxN step : Nat) (hstep : 0 < step) (start : Nat) :
    List PyStr :=
  if start < t.length then
    let e := min (start + maxN) t.length
    let ch := pyStrip ((t.drop start).take (e - start))
    (if ch = [] then [] else [ch]) ++
      (if t.length ≤ e then [] else chunkLoop t maxN step hstep (start + step))
  else []
termination_by t.length - start
decreasing_by omega

/-- `_chunk_by_chars` (text_cleaner.py lines 42-70).  `max_chars` and
`overlap` are Python ints, so they are modelled as `Int`. -/
def chunkByChars (text : PyStr) (maxChars overlap : Int) : List PyStr :=
  if text = [] then []
  else if hm : maxChars ≤ 0 then [text]
  else
    let t := pyStrip text
    let step0 := maxChars - max overlap 0
    chunkLoop t maxChars.toNat
      (if step0 ≤ 0 then maxChars.toNat else step0.toNat)
      (by split <;> omega) 0

/-- Worker for `splitParas`: `cur` is the pending piece, `nl` counts the
pending run of newlines not yet classified as separator or content. -/
def splitParasAux (cur : PyStr) (nl : Nat) : PyStr → List PyStr
  | [] => if 2 ≤ nl then [cur, []] else [cur ++ List.replicate nl '\n']
  | c :: rest =>
    if c = '\n' then splitParasAux cur (nl + 1) rest
    else if 2 ≤ nl then cur :: splitParasAux [c] 0 rest
    else splitParasAux (cur ++ List.replicate nl '\n' ++ [c]) 0 rest

/-- `re.split(r"\n{2,}", s)`: split on each maximal run of two or more
newlines (text_cleaner.py line 115). -/
def splitParas (s : PyStr) : List PyStr := splitParasAux [] 0 s

/-- `[p.strip() for p in re.split(r"\n{2,}", cleaned) if len(p.strip()) > 0]`
(text_cleaner.py line 115). -/
def parasOf (cleaned : PyStr) : List PyStr :=
  (splitParas cleaned).filterMap fun p =>
    let q := pyStrip p
    if q = [] then none else some q

/-- `"\n\n".join(paras)` (text_cleaner.py line 116). -/
def joinDoubleNL : List PyStr → PyStr
  | [] => []
  | [l] => l
  | l :: ls => l ++ '\n' :: '\n' :: joinDoubleNL ls

/-- `\S` of `_URL_RE`: any non-whitespace character. -/
def isNonSpace (c : Char) : Bool := !(isPySpace c)

/-- The `\S+` part of a `_URL_RE` match: after the literal prefix `pre`,
take the (nonempty) maximal run of non-whitespace; also return the
remainder of the string. -/
def matchUrlTail (pre rest : PyStr) : Option (PyStr × PyStr) :=
  if rest.takeWhile isNonSpace = [] then none
  else some (pre ++ rest.takeWhile isNonSpace, rest.dropWhile isNonSpace)

/-- Try to match the regex `https?://\S+` at the head of `s`; on success
return the matched text and the remainder of the string. -/
def matchUrlAt (s : PyStr) : Option (PyStr × PyStr) :=
  if ("https://").toList.isPrefixOf s then
    matchUrlTail (("https://").toList) (s.drop 8)
  else if ("http://").toList.isPrefixOf s then
    matchUrlTail (("http://").toList) (s.drop 7)
  else none

theorem dropWhile_length_le (p : Char → Bool) (l : PyStr) :
    (l.dropWhile p).length ≤ l.length := by
  induction l with
  | nil => simp
  | cons c rest ih =>
    by_cases hp : p c
    · simp only [List.dropWhile_cons, hp, if_true]
      exact Nat.le_trans ih (Nat.le_succ _)
    · simp [List.dropWhile_cons, hp]

theorem matchUrlTail_length {pre rest u r : PyStr}
    (h : matchUrlTail pre rest = some (u, r)) : r.length ≤ rest.length := by
  unfold matchUrlTail at h
  split at h
  · exact absurd h (by simp)
  · simp only [Option.some.injEq, Prod.mk.injEq] at h
    rw [← h.2]
    exact dropWhile_length_le _ _

theorem matchUrlAt_length {c : Char} {rest u r : PyStr}
    (h : matchUrlAt (c :: rest) = some (u, r)) : r.length < rest.length + 1 := by
  unfold matchUrlAt at h
  split at h
  · have := matchUrlTail_length h
    simp [List.length_drop] at this
    omega
  · split at h
    · have := matchUrlTail_length h
      simp [List.length_drop] at this
      omega
    · exact absurd h (by simp)

/-- `_URL_RE.findall(ch)` (text_cleaner.py lines 7 and 122): leftmost,
non-overlapping matches of `https?://\S+`. -/
def findUrls : PyStr → List PyStr
  | [] => []
  | c :: rest =>
    match h : matchUrlAt (c :: rest) with
    | some (u, remaining) => u :: findUrls remaining
    | none => findUrls rest
termination_by s => s.length
decreasing_by
  · simpa using matchUrlAt_length h
  · simp

/-- `f"{idx:03d}"`: decimal digits, zero-padded to width 3. -/
def zfill3 (idx : Nat) : PyStr :=
  let ds := Nat.toDigits 10 idx
  List.replicate (3 - ds.length) '0' ++ ds

/-- One element of the list of dicts returned by
`chunk_text_with_provenance` (text_cleaner.py lines 123-133). -/
structure Chunk where
  chunkId : PyStr
  pageUrl : PyStr
  sectionHeading : Option PyStr
  chunkIndex : Nat
  text : PyStr
  charCount : Nat
  sourceUrlRefsInText : List PyStr
deriving DecidableEq

/-- `chunk_text_with_provenance` (text_cleaner.py lines 73-134), entered
with explicit `page_url`, `text`, `max_chars` and `overlap`.  The
`*args/**kwargs` convention-dispatch of lines 87-108 only selects these
four values (old style fixes `overlap = 0`); the body from line 110 on is
transcribed here. -/
def chunkTextWithProvenance (pageUrl text : PyStr) (maxChars overlap : Int) :
    List Chunk :=
  let cleaned := cleanText text
  if cleaned = [] then []
  else
    let paras := parasOf cleaned
    let joined := joinDoubleNL paras
    let rawChunks := chunkByChars joined maxChars overlap
    rawChunks.enum.map fun p =>
      { chunkId := zfill3 p.1
        pageUrl := pageUrl
        sectionHeading := none
        chunkIndex := p.1
        text := p.2
        charCount := p.2.length
        sourceUrlRefsInText := findUrls p.2 }

/-! ## `urllib.parse` (the subset used by scraper.py and app.py)

`urlsplit`/`urlparse`/`urlunparse`/`urldefrag` are transcribed from
CPython's `urllib/parse.py`.  The model is total: the `ValueError` that
CPython raises for an authority containing unbalanced `[`/`]` brackets is
outside the modelled domain (no claim involves bracketed hosts). -/

/-- Python `str.lower()` (ASCII case folding; `Char.toLower` matches it
on the ASCII range used by the claims). -/
def toLowerStr (l : PyStr) : PyStr := l.map Char.toLower

/-- CPython `urlsplit` first removes the unsafe bytes `\t`, `\r`, `\n`
anywhere in the URL. -/
def sanitizeUrl (u : PyStr) : PyStr :=
  u.filter fun c => !(c = '\t' || c = '\r' || c = '\n')

/-- `scheme_chars` of `urllib/parse.py`. -/
def schemeChar (c : Char) : Bool :=
  c.isAlpha || c.isDigit || c = '+' || c = '-' || c = '.'

/-- The scheme-splitting step of `urlsplit`: the text before the first
`:` is a scheme when it is nonempty, starts with an ASCII letter and
consists of scheme characters; the scheme is lower-cased. -/
def splitScheme (u : PyStr) : PyStr × PyStr :=
  let pre := u.takeWhile (· ≠ ':')
  match u.dropWhile (· ≠ ':') with
  | [] => ([], u)
  | _ :: rest =>
    if (match pre with
        | [] => false
        | c :: _ => c.isAlpha) && pre.all schemeChar
    then (toLowerStr pre, rest)
    else ([], u)

/-- A character ending the netloc portion of a URL. -/
def isNetlocEnd (c : Char) : Bool := c = '/' || c = '?' || c = '#'

/-- The netloc-splitting step of `urlsplit`: after a leading `//`, the
netloc extends to the next `/`, `?` or `#`. -/
def splitNetloc (u : PyStr) : PyStr × PyStr :=
  match u with
  | '/' :: '/' :: rest =>
    (rest.takeWhile (fun c => !isNetlocEnd c), rest.dropWhile (fun c => !isNetlocEnd c))
  | _ => ([], u)

/-- Python `url.split(sep, 1)` when `sep in url` may fail: returns the
part before the first `sep` and, when present, the part after it. -/
def splitAtFirst (sep : Char) (u : PyStr) : PyStr × Option PyStr :=
  match u.dropWhile (· ≠ sep) with
  | [] => (u, none)
  | _ :: rest => (u.takeWhile (· ≠ sep), some rest)

/-- The six components of CPython's `ParseResult`. -/
structure UrlParts where
  scheme : PyStr
  netloc : PyStr
  path : PyStr
  params : PyStr
  query : PyStr
  fragment : PyStr
deriving DecidableEq

/-- CPython `urlsplit` (fragments allowed), with empty `params`. -/
def urlsplitPy (url : PyStr) : UrlParts :=
  let url := sanitizeUrl url
  let (scheme, rest) := splitScheme url
  let (netloc, rest) := splitNetloc rest
  let (rest, frag) := splitAtFirst '#' rest
  let (path, query) := splitAtFirst '?' rest
  ⟨scheme, netloc, path, [], query.getD [], frag.getD []⟩

/-- CPython `_splitparams`: split `params` off the last path segment
(`url.find(';', url.rfind('/'))` when the path contains a `/`, else the
first `;`). -/
def splitParams (path : PyStr) : PyStr × PyStr :=
  if '/' ∈ path then
    let lastSeg := (path.reverse.takeWhile (· ≠ '/')).reverse
    let pre := path.take (path.length - lastSeg.length)
    match splitAtFirst ';' lastSeg with
    | (_, none) => (path, [])
    | (seg, some ps) => (pre ++ seg, ps)
  else
    match splitAtFirst ';' path with
    | (_, none) => (path, [])
    | (seg, some ps) => (seg, ps)

/-- CPython `urlparse`: `urlsplit` plus the params split (performed only
when the path contains a `;`). -/
def urlparsePy (url : PyStr) : UrlParts :=
  let s := urlsplitPy url
  if ';' ∈ s.path then
    let (p, ps) := splitParams s.path
    { s with path := p, params := ps }
  else s

/-- CPython `urlunsplit` (on a five-component value; `params` ignored). -/
def urlunsplitPy (p : UrlParts) : PyStr :=
  let url := p.path
  let url :=
    if p.netloc ≠ [] ∨ url.take 2 = ['/', '/'] then
      '/' :: '/' :: p.netloc ++
        (if url ≠ [] ∧ url.take 1 ≠ ['/'] then '/' :: url else url)
    else url
  let url := if p.scheme ≠ [] then p.scheme ++ ':' :: url else url
  let url := if p.query ≠ [] then url ++ '?' :: p.query else url
  if p.fragment ≠ [] then url ++ '#' :: p.fragment else url

/-- CPython `urlunparse`: re-attach `;params` to the path, then
`urlunsplit`. -/
def urlunparsePy (p : UrlParts) : PyStr :=
  urlunsplitPy { p with path := if p.params ≠ [] then p.path ++ ';' :: p.params else p.path }

/-- CPython `urldefrag` (first component): when the URL contains a `#`,
parse it and rebuild it without the fragment; otherwise return it
unchanged.  This is `_strip_fragment` of scraper.py lines 49-50. -/
def urldefragPy (url : PyStr) : PyStr :=
  if '#' ∈ url then urlunparsePy { urlparsePy url with fragment := [] }
  else url

/-- `re.sub(r"/{2,}", "/", path)` (scraper.py line 67): collapse runs of
slashes to one slash. -/
def collapseSlashes (l : PyStr) : PyStr := collapseRuns (· = '/') '/' l

/-- Python `s.endswith(suffix)`. -/
def endsWithStr (suffix l : PyStr) : Bool :=
  suffix.reverse.isPrefixOf l.reverse

/-- `_normalize_url` (scraper.py lines 53-77). -/
def normalizeUrl (url : PyStr) : PyStr :=
  let url := urldefragPy (pyStrip url)
  let p := urlparsePy url
  let scheme := toLowerStr (if p.scheme = [] then ("https").toList else p.scheme)
  let netloc := toLowerStr p.netloc
  let path := if p.path = [] then ['/'] else p.path
  let path := collapseSlashes path
  let netloc :=
    if endsWithStr ((":80").toList) netloc && scheme = ("http").toList then
      netloc.take (netloc.length - 3)
    else netloc
  let netloc :=
    if endsWithStr ((":443").toList) netloc && scheme = ("https").toList then
      netloc.take (netloc.length - 4)
    else netloc
  let path :=
    if path ≠ ['/'] ∧ endsWithStr (['/']) path then path.take (path.length - 1)
    else path
  urlunparsePy ⟨scheme, netloc, path, [], p.query, []⟩

/-- `_same_site` (scraper.py lines 80-83). -/
def sameSite (a b : PyStr) : Bool :=
  toLowerStr (urlparsePy a).netloc = toLowerStr (urlparsePy b).netloc

/-- `_is_http_url` (scraper.py lines 86-90). -/
def isHttpUrl (url : PyStr) : Bool :=
  (urlparsePy url).scheme = ("http").toList ∨ (urlparsePy url).scheme = ("https").toList

-- sanity examples for the URL model
example : normalizeUrl (("HTTP://Example.com:80/a//b/").toList) =
    ("http://example.com/a/b").toList := by decide
example : normalizeUrl (("https://x.com/p#frag").toList) = ("https://x.com/p").toList := by
  decide
example : normalizeUrl ([]) = ("https:/").toList := by decide
example : sameSite (("https://a.com/x").toList) (("http://A.com").toList) = true := by decide

/-! ## The site scraper (scraper.py)

`requests` and `BeautifulSoup` are external collaborators.  A fetch is
modelled by an oracle `http : PyStr → Option HttpResponse`: `none` is the
exception path of `scrape_page` (network error, timeout); `some r` gives
the response's resolved URL, status code, `content-type` header, and the
BeautifulSoup-extracted title, visible text and anchor `href` values.
`urllib.parse.urljoin` is likewise passed in as an uninterpreted function
`join` (its output is always re-normalized and filtered, so no claim
depends on its internals).  The wall clock `_now_iso()` is a parameter
`clock`. -/

/-- What the external HTTP + HTML-parsing collaborators return for one
fetched page. -/
structure HttpResponse where
  respUrl : PyStr
  statusCode : Int
  contentType : PyStr
  titleString : Option PyStr
  bodyVisibleText : PyStr
  hrefs : List PyStr

/-- `_clean_whitespace` (scraper.py lines 45-46): strip, then collapse
runs of `\s` to one space. -/
def cleanWhitespace (t : PyStr) : PyStr := collapseRuns isPySpace ' ' (pyStrip t)

/-- Python's substring test `needle in hay`. -/
def strContains (hay needle : PyStr) : Bool :=
  match hay with
  | [] => needle.isPrefixOf []
  | _ :: rest => needle.isPrefixOf hay || strContains rest needle

/-- Order-preserving de-duplication (the `seen`-set loop at scraper.py
lines 134-140). -/
def dedupKeepOrder (l : List PyStr) : List PyStr :=
  l.foldl (fun acc u => if u ∈ acc then acc else acc ++ [u]) []

/-- `host_url = final_url or base_url` (scraper.py line 114). -/
def hostUrlOf (baseUrl : PyStr) (finalUrl : Option PyStr) : PyStr :=
  match finalUrl with
  | some f => if f = [] then baseUrl else f
  | none => baseUrl

/-- The body of the `for a in soup.find_all("a", href=True)` loop of
`_extract_internal_links` (scraper.py lines 118-132), acting on the
accumulated `found` list. -/
def extractStep (join : PyStr → PyStr → PyStr) (hostUrl : PyStr)
    (acc : List PyStr) (a : PyStr) : List PyStr :=
  let href := pyStrip a
  if href = [] then acc
  else if (("mailto:").toList.isPrefixOf href) ||
      (("tel:").toList.isPrefixOf href) ||
      (("javascript:").toList.isPrefixOf href) ||
      (("data:").toList.isPrefixOf href) then acc
  else
    let absUrl := normalizeUrl (join hostUrl href)
    if !isHttpUrl absUrl then acc
    else if sameSite hostUrl absUrl then acc ++ [absUrl]
    else acc

/-- `_extract_internal_links` (scraper.py lines 108-140).  `hrefs` are
the raw `a[href]` values BeautifulSoup finds in the HTML, in document
order. -/
def extractInternalLinks (join : PyStr → PyStr → PyStr) (baseUrl : PyStr)
    (hrefs : List PyStr) (finalUrl : Option PyStr) : List PyStr :=
  dedupKeepOrder (hrefs.foldl (extractStep join (hostUrlOf baseUrl finalUrl)) [])

/-- The `PageResult` dataclass (scraper.py lines 143-163). -/
structure PageResult where
  url : PyStr
  finalUrl : PyStr
  statusCode : Int
  contentType : PyStr
  title : PyStr
  cleanText : PyStr
  fetchedAt : PyStr
deriving DecidableEq

/-- `scrape_page` (scraper.py lines 166-218). -/
def scrapePage (join : PyStr → PyStr → PyStr) (clock : PyStr)
    (http : PyStr → Option HttpResponse) (url : PyStr) :
    Option PageResult × List PyStr :=
  match http url with
  | none => (none, [])
  | some r =>
    let finalUrl := normalizeUrl (if r.respUrl = [] then url else r.respUrl)
    let ctype := toLowerStr (pyStrip (r.contentType.takeWhile (· ≠ ';')))
    if !(strContains ctype (("html").toList)) then
      (some ⟨normalizeUrl url, finalUrl, r.statusCode, ctype, [], [], clock⟩, [])
    else
      let title := match r.titleString with
        | none => []
        | some s => cleanWhitespace s
      let cleanTxt := cleanWhitespace r.bodyVisibleText
      let links := extractInternalLinks join url r.hrefs (some finalUrl)
      (some ⟨normalizeUrl url, finalUrl, r.statusCode,
        (if ctype = [] then ("text/html").toList else ctype), title, cleanTxt, clock⟩,
        links)

/-- The result dict of `scrape_site` (scraper.py lines 268-274), plus two
ghost fields that instrument the run: `fetched` records every URL passed
to `scrape_page`, and `enqueuedLog` every URL ever appended to the BFS
queue (including the start URL).  Neither ghost field influences the
computation. -/
structure CrawlResult where
  baseUrl : PyStr
  finalUrl : PyStr
  pages : List PageResult
  links : List PyStr
  maxPages : Nat
  fetched : List PyStr
  enqueuedLog : List PyStr

/-- The `for u in links` body of `scrape_site` (scraper.py lines
260-266): update `all_links`, then conditionally enqueue.  The
accumulator is `(all_links, queue, enqueuedLog)`. -/
def pushLinks (maxPages : Nat) (seen : List PyStr) (links : List PyStr)
    (allLinks queue enqLog : List PyStr) : List PyStr × List PyStr × List PyStr :=
  links.foldl (fun acc u =>
    let al := if u ∈ acc.1 then acc.1 else acc.1 ++ [u]
    if u ∉ seen ∧ u ∉ acc.2.1 ∧ acc.2.1.length < maxPages * 5 then
      (al, acc.2.1 ++ [u], acc.2.2 ++ [u])
    else (al, acc.2.1, acc.2.2)) (allLinks, queue, enqLog)

/-- The `while queue and len(pages) < max_pages` loop of `scrape_site`
(scraper.py lines 245-266).  Returns
`(pages, allLinks, finalRoot, fetched, enqueuedLog)`. -/
def scrapeLoop (join : PyStr → PyStr → PyStr) (clock : PyStr)
    (http : PyStr → Option HttpResponse) (maxPages : Nat)
    (queue seen : List PyStr) (pages : List PageResult)
    (allLinks : List PyStr) (finalRoot : PyStr) (fetched enqLog : List PyStr) :
    List PageResult × List PyStr × PyStr × List PyStr × List PyStr :=
  match queue with
  | [] => (pages, allLinks, finalRoot, fetched, enqLog)
  | url :: rest =>
    if h : pages.length < maxPages then
      if url ∈ seen then
        scrapeLoop join clock http maxPages rest seen pages allLinks finalRoot fetched enqLog
      else
        let seen' := seen ++ [url]
        match scrapePage join clock http url with
        | (none, _) =>
          scrapeLoop join clock http maxPages rest seen' pages allLinks finalRoot
            (fetched ++ [url]) enqLog
        | (some pr, links) =>
          let finalRoot' := if pages.length = 0 ∧ pr.finalUrl ≠ [] then pr.finalUrl
            else finalRoot
          let pages' := pages ++ [pr]
          let (allLinks', queue', enqLog') :=
            pushLinks maxPages seen' links allLinks rest enqLog
          scrapeLoop join clock http maxPages queue' seen' pages' allLinks' finalRoot'
            (fetched ++ [url]) enqLog'
    else (pages, allLinks, finalRoot, fetched, enqLog)
termination_by (maxPages - pages.length, queue.length)
decreasing_by
  · exact Prod.Lex.right _ (by simp)
  · exact Prod.Lex.right _ (by simp)
  · exact Prod.Lex.left _ _ (by simp; omega)

/-- `scrape_site` (scraper.py lines 221-274). -/
def scrapeSite (join : PyStr → PyStr → PyStr) (clock : PyStr)
    (http : PyStr → Option HttpResponse) (startUrl : PyStr) (maxPages : Nat) :
    CrawlResult :=
  let start := normalizeUrl startUrl
  let (pages, allLinks, finalRoot, fetched, enqLog) :=
    scrapeLoop join clock http maxPages [start] [] [] [] start [] [start]
  ⟨start, finalRoot, pages, allLinks, maxPages, fetched, enqLog⟩

/-! ## The app-level scraper (app.py lines 204-300)

app.py defines its own `normalize_url` / `same_site` /
`extract_internal_links` / `scrape_site`.  The HTTP session is the oracle
`httpA : PyStr → Option (PyStr × PyStr)` giving `(r.text, content-type)`
for a successful non-4xx/5xx response (`none` covers exceptions and
`raise_for_status`), and BeautifulSoup's text extraction is the parameter
`soupText`. -/

/-- `normalize_url` (app.py lines 204-210): strip; prepend `https://`
unless the URL already matches `^https?://` case-insensitively. -/
def normalizeUrlApp (url : PyStr) : PyStr :=
  let url := pyStrip url
  if url = [] then url
  else if toLowerStr (url.take 7) = ("http://").toList ∨
      toLowerStr (url.take 8) = ("https://").toList then url
  else ("https://").toList ++ url

/-- CPython `SplitResult.hostname`: part of the netloc after the last
`@` and before the first `:`, lower-cased (bracketed IPv6 hosts are
outside the modelled domain). -/
def hostnameOf (netloc : PyStr) : PyStr :=
  toLowerStr (((netloc.reverse.takeWhile (· ≠ '@')).reverse).takeWhile (· ≠ ':'))

/-- `same_site` (app.py lines 212-215): equality of parsed hostnames. -/
def sameSiteApp (a b : PyStr) : Bool :=
  hostnameOf (urlparsePy a).netloc = hostnameOf (urlparsePy b).netloc

/-- `extract_internal_links` (app.py lines 217-239). -/
def extractInternalLinksApp (join : PyStr → PyStr → PyStr) (baseUrl : PyStr)
    (hrefs : List PyStr) : List PyStr :=
  let found := hrefs.foldl (fun acc a =>
    let href := pyStrip a
    if href = [] then acc
    else if (("#").toList.isPrefixOf href) ||
        (("mailto:").toList.isPrefixOf (toLowerStr href)) ||
        (("javascript:").toList.isPrefixOf (toLowerStr href)) then acc
    else
      let u := join baseUrl href
      let u := urlunparsePy { urlparsePy u with fragment := [] }
      if sameSiteApp baseUrl u then acc ++ [u] else acc) []
  dedupKeepOrder found

/-- `[ \t]{2,}` → `" "` of `clean_text_basic`: a run of two or more
spaces/tabs becomes one space, while an isolated space or tab is kept
as-is.  `pending` holds a single whitespace character whose run length is
not yet known. -/
def ctbAux : Option Char → PyStr → PyStr
  | none, [] => []
  | some w, [] => [w]
  | none, c :: rest => if isWsChar c then ctbAux (some c) rest else c :: ctbAux none rest
  | some w, c :: rest =>
    if isWsChar c then ' ' :: ctbSkipWs rest
    else w :: c :: ctbAux none rest
where
  /-- skip the remainder of a collapsed whitespace run -/
  ctbSkipWs : PyStr → PyStr
    | [] => []
    | c :: rest => if isWsChar c then ctbSkipWs rest else c :: ctbAux none rest

/-- `re.sub(r"\n{3,}", "\n\n", t)`: runs of three or more newlines
become exactly two; shorter runs are unchanged.  (Emitting at most two
newlines per run is extensionally the same rule as `collapseNLAux`,
since runs of one or two are below the cap.) -/
def collapseNL3 (l : PyStr) : PyStr := collapseNLAux 0 l

/-- `clean_text_basic` (app.py lines 248-256). -/
def cleanTextBasic (text : PyStr) : PyStr :=
  let t := replaceCR text
  let t := collapseNL3 t
  let t := ctbAux none t
  let lines := ((splitOnNL t).map pyStrip).filter (· ≠ [])
  pyStrip (joinNL lines)

/-- `html_to_text` (app.py lines 241-246): BeautifulSoup extraction
(`soupText`) followed by `clean_text_basic`. -/
def htmlToText (soupText : PyStr → PyStr) (html : PyStr) : PyStr :=
  cleanTextBasic (soupText html)

/-- `fetch_url` (app.py lines 258-268): `none` when the request raised
or the response looks non-HTML. -/
def fetchUrl (httpA : PyStr → Option (PyStr × PyStr)) (url : PyStr) :
    Option PyStr × Option PyStr :=
  match httpA url with
  | none => (none, none)
  | some (txt, ct) =>
    let ctype := toLowerStr ct
    if !(strContains ctype (("text/html").toList)) &&
        !(strContains ctype (("application/xhtml").toList)) &&
        !(endsWithStr ((".htm").toList) (toLowerStr url) ||
          endsWithStr ((".html").toList) (toLowerStr url) ||
          endsWithStr (("/").toList) (toLowerStr url)) then
      (none, none)
    else (some txt, some ctype)

/-- One entry of the pages list of app.py's `scrape_site` (line 290). -/
structure AppPage where
  url : PyStr
  html : PyStr
  text : PyStr
deriving DecidableEq

/-- The `for u in extract_internal_links(url, html)` body of app.py's
`scrape_site` (lines 293-296): enqueue unvisited links while the visited
set stays below `max_pages * 20`.  Accumulator `(seen, queue)`. -/
def pushLinksApp (maxPages : Nat) (links : List PyStr)
    (seen queue : List PyStr) : List PyStr × List PyStr :=
  links.foldl (fun acc u =>
    if u ∉ acc.1 ∧ acc.1.length < maxPages * 20 then
      (acc.1 ++ [u], acc.2 ++ [u])
    else acc) (seen, queue)

/-- The `while queue and len(pages) < max_pages` loop of app.py's
`scrape_site` (lines 283-298), instrumented with the ghost list
`fetched` of URLs passed to `fetch_url`.  `soupHrefs` is BeautifulSoup's
`a[href]` extraction from HTML.  Returns `(pages, fetched)`. -/
def scrapeLoopApp (join : PyStr → PyStr → PyStr) (soupText : PyStr → PyStr)
    (soupHrefs : PyStr → List PyStr) (httpA : PyStr → Option (PyStr × PyStr))
    (maxPages : Nat) (queue seen : List PyStr) (pages : List AppPage)
    (fetched : List PyStr) : List AppPage × List PyStr :=
  match queue with
  | [] => (pages, fetched)
  | url :: rest =>
    if h : pages.length < maxPages then
      match fetchUrl httpA url with
      | (none, _) =>
        scrapeLoopApp join soupText soupHrefs httpA maxPages rest seen pages
          (fetched ++ [url])
      | (some html, _) =>
        if html = [] then
          scrapeLoopApp join soupText soupHrefs httpA maxPages rest seen pages
            (fetched ++ [url])
        else
          let text := htmlToText soupText html
          let pages' := pages ++ [⟨url, html, text⟩]
          let links := extractInternalLinksApp join url (soupHrefs html)
          let (seen', queue') := pushLinksApp maxPages links seen rest
          scrapeLoopApp join soupText soupHrefs httpA maxPages queue' seen' pages'
            (fetched ++ [url])
    else (pages, fetched)
termination_by (maxPages - pages.length, queue.length)
decreasing_by
  all_goals first
    | exact Prod.Lex.right _ (by simp)
    | exact Prod.Lex.left _ _ (by simp; omega)

/-- app.py's `scrape_site` (lines 270-300): fail fast on an empty
normalized start URL, otherwise BFS from it. -/
def scrapeSiteApp (join : PyStr → PyStr → PyStr) (soupText : PyStr → PyStr)
    (soupHrefs : PyStr → List PyStr) (httpA : PyStr → Option (PyStr × PyStr))
    (startUrl : PyStr) (maxPages : Nat) : List AppPage × List PyStr :=
  let start := normalizeUrlApp startUrl
  if start = [] then ([], [])
  else scrapeLoopApp join soupText soupHrefs httpA maxPages [start] [start] [] []

/-! ## The chunking algorithm described by the specification (for C5) -/

/-- Modelled from the spec: "A single paragraph longer than `max_chars`
is hard-split into consecutive fixed-size slices of exactly `max_chars`
(final slice may be shorter)" (§4.6): slice `k` is the `maxN` characters
starting at offset `k * maxN`. -/
def hardSlices (maxN : Nat) (p : PyStr) : List PyStr :=
  (List.range ((p.length + maxN - 1) / maxN)).map fun k => (p.drop (k * maxN)).take maxN

/-- Modelled from the spec: "accumulate paragraphs into a buffer until
adding the next paragraph would exceed `max_chars`, then flush the
buffer as one chunk and start a new buffer with that paragraph" (§4.6);
an oversize paragraph is hard-split via `hardSlices`.  Buffered
paragraphs are joined with the blank-line separator. -/
def specAccum (maxN : Nat) : List PyStr → PyStr → List PyStr
  | [], buf => if buf = [] then [] else [buf]
  | p :: ps, buf =>
    let cand := if buf = [] then p else buf ++ '\n' :: '\n' :: p
    if cand.length ≤ maxN then specAccum maxN ps cand
    else
      (if buf = [] then [] else [buf]) ++
        (if p.length ≤ maxN then specAccum maxN ps p
         else hardSlices maxN p ++ specAccum maxN ps [])

/-- Modelled from the spec: "`overlap` (characters), when supported,
causes each new chunk (beyond the first) to be prefixed with the
trailing `overlap` characters of the previous chunk" (§4.6). -/
def applyOverlap (overlap : Nat) : List PyStr → List PyStr
  | [] => []
  | c0 :: cs =>
    c0 :: List.zipWith (fun prev cur => (prev.reverse.take overlap).reverse ++ cur)
      (c0 :: cs) cs

/-- Modelled from the spec: the full §4.6 chunking algorithm on cleaned
text — blank-line paragraph split, buffer accumulation with flush,
hard-split of oversize paragraphs, then the overlap prefix rule.  (The
spec does not define the algorithm for `max_chars ≤ 0`; the model
returns no chunks there, which no claim exercises.) -/
def specParagraphChunks (cleaned : PyStr) (maxChars overlap : Int) : List PyStr :=
  if maxChars ≤ 0 then []
  else applyOverlap overlap.toNat (specAccum maxChars.toNat (parasOf cleaned) [])

/-! ## Verification predicates (used only in the statements and proofs
below) -/

/-- The head of the string, if any, does not satisfy `p`. -/
def firstOk (p : Char → Bool) : PyStr → Bool
  | [] => true
  | c :: _ => !(p c)

/-- The last character of the string, if any, does not satisfy `p`. -/
def lastOk (p : Char → Bool) (l : PyStr) : Bool := firstOk p l.reverse

/-- No tab, and no two adjacent space/tab characters: the strings
`_WS_RE.sub(" ", ·)` can produce. -/
def wsGoodB : PyStr → Bool
  | [] => true
  | [c] => !(c = '\t')
  | c :: d :: rest => (!(c = '\t')) && (!(isWsChar c && isWsChar d)) && wsGoodB (d :: rest)

/-- No two adjacent newline characters (no blank line). -/
def noDoubleNL : PyStr → Bool
  | [] => true
  | [_] => true
  | c :: d :: rest => (!(c = '\n' && d = '\n')) && noDoubleNL (d :: rest)

/-- The normalized `(scheme, host)` pair of a URL, as compared by the
same-site claims: the parsed scheme and the lower-cased parsed netloc. -/
def schemeHostOf (u : PyStr) : PyStr × PyStr :=
  ((urlparsePy u).scheme, toLowerStr (urlparsePy u).netloc)

/-- The well-formed-URL character class for hosts used in the amended
C6 statement: letters, digits, dots and hyphens. -/
def hostChar (c : Char) : Bool :=
  c.isAlpha || c.isDigit || c = '.' || c = '-'

/-- The well-formed-URL character class for paths used in the amended
C6 statement. -/
def pathChar (c : Char) : Bool :=
  c.isAlpha || c.isDigit || c = '/' || c = '.' || c = '-' || c = '_' || c = '~'

/-- The well-formed-URL character class for query strings used in the
amended C6 statement: printable ASCII other than `#`. -/
def queryChar (c : Char) : Bool :=
  (0x21 ≤ c.toNat && c.toNat ≤ 0x7e) && !(c = '#')

/-- Assemble `scheme://host[port]path[?query]` from its components (the
URL shape quantified over by the amended C6 statement). -/
def mkClassUrl (scheme host port path query : PyStr) : PyStr :=
  scheme ++ (("://").toList) ++ host ++ port ++ path ++
    (if query = [] then [] else '?' :: query)

/-- No two adjacent slashes (the strings `re.sub(r"/{2,}", "/", ·)` can
produce). -/
def slashGoodB : PyStr → Bool
  | [] => true
  | [_] => true
  | c :: d :: rest => (!(c = '/' && d = '/')) && slashGoodB (d :: rest)

/-- What `_normalize_url`'s default-port stripping does to a
`[':' ++ digits]` port suffix under the given (lower-cased) scheme. -/
def portAfterStrip (scheme : PyStr) (port : PyStr) : PyStr :=
  match port with
  | ':' :: ds =>
    if (ds = ('8' :: '0' :: []) ∧ scheme = ("http").toList) ∨
        (ds = ('4' :: '4' :: '3' :: []) ∧ scheme = ("https").toList) then []
    else ':' :: ds
  | _ => port

/-- The trailing-slash strip of `_normalize_url` (scraper.py lines
74-75) as a standalone function. -/
def stripTrailingSlash (path : PyStr) : PyStr :=
  if path ≠ ['/'] ∧ endsWithStr (['/']) path then path.take (path.length - 1)
  else path

/-! ## Concrete instances used by the claim theorems -/

/-- A 35-character single-line text that `clean_text` keeps unchanged. -/
def para35 : PyStr := ("abcdefghijklmnopqrstuvwxyzabcdefghi").toList

/-- `urljoin` restricted to absolute `http(s)` hrefs, where it returns
the href itself; all concrete crawls below only join such hrefs. -/
def absJoin (base href : PyStr) : PyStr := href

/-- Page A of the two-page cycle site (already in normalized form). -/
def urlA : PyStr := ("https://a.com/").toList

/-- Page B of the two-page cycle site. -/
def urlB : PyStr := ("https://a.com/b").toList

/-- An HTTP oracle for a two-page site in which both pages link to both
pages (a 2-node link cycle). -/
def cycHttp (u : PyStr) : Option HttpResponse :=
  if u = urlA then
    some ⟨urlA, 200, ("text/html").toList, none, [], [urlA, urlB]⟩
  else if u = urlB then
    some ⟨urlB, 200, ("text/html").toList, none, [], [urlA, urlB]⟩
  else none

/-- An HTTP oracle for a one-page site whose page carries one anchor to
`http://a.com/x`: same host as the (https) start URL but scheme http. -/
def mixedSchemeHttp (u : PyStr) : Option HttpResponse :=
  if u = urlA then
    some ⟨urlA, 200, ("text/html").toList, none, [], [("http://a.com/x").toList]⟩
  else none

/-- An HTTP oracle on which every fetch fails. -/
def failHttp (_ : PyStr) : Option HttpResponse := none

/-! ## Lemmas about Python `strip` -/

theorem dropWhile_head_false {p : Char → Bool} :
    ∀ {l : PyStr} {c : Char} {r : PyStr}, List.dropWhile p l = c :: r → p c = false := by
  intro l
  induction l with
  | nil => intro c r h; simp at h
  | cons a rest ih =>
    intro c r h
    by_cases hp : p a
    · rw [List.dropWhile_cons, if_pos hp] at h
      exact ih h
    · rw [List.dropWhile_cons, if_neg hp] at h
      cases h
      simpa using hp

theorem dropWhile_dropWhile (p : Char → Bool) (l : PyStr) :
    (l.dropWhile p).dropWhile p = l.dropWhile p := by
  cases h : l.dropWhile p with
  | nil => simp
  | cons c r =>
    rw [List.dropWhile_cons, if_neg (by simp [dropWhile_head_false h])]

theorem firstOk_dropWhile (p : Char → Bool) (l : PyStr) :
    firstOk p (l.dropWhile p) = true := by
  cases h : l.dropWhile p with
  | nil => simp [firstOk]
  | cons c r => simp [firstOk, dropWhile_head_false h]

theorem dropWhile_eq_self (p : Char → Bool) {l : PyStr} (h : firstOk p l = true) :
    l.dropWhile p = l := by
  cases l with
  | nil => simp
  | cons c r =>
    simp only [firstOk, Bool.not_eq_true'] at h
    simp [List.dropWhile_cons, h]

theorem pyLStrip_eq_self {l : PyStr} (h : firstOk isPySpace l = true) :
    pyLStrip l = l := dropWhile_eq_self _ h

theorem pyRStrip_eq_self {l : PyStr} (h : lastOk isPySpace l = true) :
    pyRStrip l = l := by
  unfold pyRStrip
  rw [dropWhile_eq_self _ h, List.reverse_reverse]

theorem pyStrip_eq_self {l : PyStr} (h1 : firstOk isPySpace l = true)
    (h2 : lastOk isPySpace l = true) : pyStrip l = l := by
  unfold pyStrip
  rw [pyLStrip_eq_self h1, pyRStrip_eq_self h2]

theorem rstrip_append (l : PyStr) : pyRStrip l ++ (l.reverse.takeWhile isPySpace).reverse = l := by
  unfold pyRStrip
  rw [← List.reverse_append, List.takeWhile_append_dropWhile, List.reverse_reverse]

theorem firstOk_pyRStrip {l : PyStr} (h : firstOk isPySpace l = true) :
    firstOk isPySpace (pyRStrip l) = true := by
  have hd := rstrip_append l
  cases hr : pyRStrip l with
  | nil => simp [firstOk]
  | cons c r =>
    rw [hr] at hd
    cases l with
    | nil => simp at hd
    | cons a as =>
      have : c = a := by
        have := congrArg (List.head? ·) hd
        simpa using this
      subst this
      simpa [firstOk] using h

theorem lastOk_pyRStrip (l : PyStr) : lastOk isPySpace (pyRStrip l) = true := by
  unfold lastOk pyRStrip
  rw [List.reverse_reverse]
  exact firstOk_dropWhile _ _

theorem firstOk_pyStrip (l : PyStr) : firstOk isPySpace (pyStrip l) = true := by
  unfold pyStrip
  exact firstOk_pyRStrip (firstOk_dropWhile _ _)

theorem lastOk_pyStrip (l : PyStr) : lastOk isPySpace (pyStrip l) = true :=
  lastOk_pyRStrip _

theorem pyStrip_idem (l : PyStr) : pyStrip (pyStrip l) = pyStrip l :=
  pyStrip_eq_self (firstOk_pyStrip l) (lastOk_pyStrip l)

theorem pyRStrip_length_le (l : PyStr) : (pyRStrip l).length ≤ l.length := by
  unfold pyRStrip
  simpa using dropWhile_length_le isPySpace l.reverse

theorem pyStrip_length_le (l : PyStr) : (pyStrip l).length ≤ l.length := by
  unfold pyStrip
  exact Nat.le_trans (pyRStrip_length_le _) (dropWhile_length_le _ _)

theorem mem_dropWhile {p : Char → Bool} {c : Char} {l : PyStr}
    (h : c ∈ l.dropWhile p) : c ∈ l := by
  have : l.takeWhile p ++ l.dropWhile p = l := List.takeWhile_append_dropWhile p l
  rw [← this]
  exact List.mem_append_right _ h

theorem mem_pyStrip {c : Char} {l : PyStr} (h : c ∈ pyStrip l) : c ∈ l := by
  unfold pyStrip pyRStrip pyLStrip at h
  have h1 : c ∈ (l.dropWhile isPySpace).reverse := mem_dropWhile (by simpa using h)
  exact mem_dropWhile (by simpa using h1)

/-! ## Lemmas about `_WS_RE` collapsing -/

theorem wsGoodB_cons {c : Char} {l : PyStr} (hc : c ≠ '\t')
    (h2 : isWsChar c = false ∨ firstOk isWsChar l = true)
    (hl : wsGoodB l = true) : wsGoodB (c :: l) = true := by
  cases l with
  | nil => simp [wsGoodB, hc]
  | cons d r =>
    simp only [wsGoodB, Bool.and_eq_true, Bool.not_eq_true', decide_eq_false_iff_not]
    refine ⟨⟨hc, ?_⟩, hl⟩
    rcases h2 with h2 | h2
    · simp [h2]
    · simp only [firstOk, Bool.not_eq_true'] at h2
      simp [h2]

theorem wsGoodB_notab {c : Char} {l : PyStr} (h : wsGoodB (c :: l) = true) :
    c ≠ '\t' := by
  cases l with
  | nil =>
    simp only [wsGoodB, Bool.not_eq_true', decide_eq_false_iff_not] at h
    exact h
  | cons d r =>
    simp only [wsGoodB, Bool.and_eq_true, Bool.not_eq_true',
      decide_eq_false_iff_not] at h
    exact h.1.1

theorem wsGoodB_tail {c : Char} {l : PyStr} (h : wsGoodB (c :: l) = true) :
    wsGoodB l = true := by
  cases l with
  | nil => simp [wsGoodB]
  | cons d r =>
    simp only [wsGoodB, Bool.and_eq_true] at h
    exact h.2

theorem wsGoodB_adj {c : Char} {l : PyStr} (h : wsGoodB (c :: l) = true)
    (hc : isWsChar c = true) : firstOk isWsChar l = true := by
  cases l with
  | nil => simp [firstOk]
  | cons d r =>
    simp only [wsGoodB, Bool.and_eq_true, Bool.not_eq_true'] at h
    rcases h with ⟨⟨-, hadj⟩, -⟩
    rw [Bool.and_eq_false_iff] at hadj
    rcases hadj with hadj | hadj
    · rw [hc] at hadj; cases hadj
    · simp [firstOk, hadj]

theorem collapseWSAux_good (l : PyStr) :
    wsGoodB (collapseRunsAux isWsChar ' ' false l) = true ∧
    wsGoodB (collapseRunsAux isWsChar ' ' true l) = true ∧
    firstOk isWsChar (collapseRunsAux isWsChar ' ' true l) = true := by
  induction l with
  | nil => simp [collapseRunsAux, wsGoodB, firstOk]
  | cons c rest ih =>
    obtain ⟨ihF, ihT, ihFO⟩ := ih
    by_cases hc : isWsChar c = true
    · simp only [collapseRunsAux, hc, if_true]
      exact ⟨wsGoodB_cons (by simp) (Or.inr ihFO) ihT, ihT, ihFO⟩
    · have hcf : isWsChar c = false := by simpa using hc
      have htab : c ≠ '\t' := by
        intro he
        subst he
        simp [isWsChar] at hcf
      simp only [collapseRunsAux, hcf, Bool.false_eq_true, if_false]
      exact ⟨wsGoodB_cons htab (Or.inl hcf) ihF,
        wsGoodB_cons htab (Or.inl hcf) ihF, by simp [firstOk, hcf]⟩

theorem collapseWS_wsGood (l : PyStr) : wsGoodB (collapseWS l) = true :=
  (collapseWSAux_good l).1

theorem collapseWSAux_fix (l : PyStr) (h : wsGoodB l = true) :
    collapseRunsAux isWsChar ' ' false l = l ∧
    (firstOk isWsChar l = true → collapseRunsAux isWsChar ' ' true l = l) := by
  induction l with
  | nil => simp [collapseRunsAux]
  | cons c rest ih =>
    obtain ⟨ihF, ihT⟩ := ih (wsGoodB_tail h)
    by_cases hc : isWsChar c = true
    · have hsp : c = ' ' := by
        have htab := wsGoodB_notab h
        simp only [isWsChar, Bool.or_eq_true, decide_eq_true_eq] at hc
        tauto
      constructor
      · simp [collapseRunsAux, hc, ihT (wsGoodB_adj h hc), hsp]
        exact fun _ => ihF
      · intro hfo
        simp only [firstOk, Bool.not_eq_true'] at hfo
        rw [hfo] at hc
        cases hc
    · have hcf : isWsChar c = false := by simpa using hc
      simp [collapseRunsAux, hcf, ihF]

theorem collapseWS_eq_self {l : PyStr} (h : wsGoodB l = true) : collapseWS l = l :=
  (collapseWSAux_fix l h).1

theorem wsGoodB_append_right : ∀ {l₁ l₂ : PyStr}, wsGoodB (l₁ ++ l₂) = true →
    wsGoodB l₂ = true := by
  intro l₁
  induction l₁ with
  | nil => intro l₂ h; simpa using h
  | cons c r ih => intro l₂ h; exact ih (wsGoodB_tail h)

theorem wsGoodB_append_left : ∀ {l₁ l₂ : PyStr}, wsGoodB (l₁ ++ l₂) = true →
    wsGoodB l₁ = true := by
  intro l₁
  induction l₁ with
  | nil => intro l₂ _; simp [wsGoodB]
  | cons c r ih =>
    intro l₂ h
    rw [List.cons_append] at h
    refine wsGoodB_cons (wsGoodB_notab h) ?_ (ih (wsGoodB_tail h))
    by_cases hc : isWsChar c = true
    · have := wsGoodB_adj h hc
      cases r with
      | nil => exact Or.inr (by simp [firstOk])
      | cons d r' => exact Or.inr (by simpa [firstOk] using this)
    · exact Or.inl (by simpa using hc)

theorem wsGoodB_dropWhile (p : Char → Bool) {l : PyStr} (h : wsGoodB l = true) :
    wsGoodB (l.dropWhile p) = true := by
  have := List.takeWhile_append_dropWhile p l
  exact wsGoodB_append_right (by rwa [this])

theorem wsGoodB_pyStrip {l : PyStr} (h : wsGoodB l = true) :
    wsGoodB (pyStrip l) = true := by
  have h1 : wsGoodB (pyLStrip l) = true := wsGoodB_dropWhile _ h
  have h3 : wsGoodB (pyRStrip (pyLStrip l) ++
      (List.takeWhile isPySpace (List.reverse (pyLStrip l))).reverse) = true := by
    rw [rstrip_append]
    exact h1
  exact wsGoodB_append_left h3

theorem mem_collapseRunsAux {p : Char → Bool} {r c : Char} :
    ∀ {b : Bool} {l : PyStr}, c ∈ collapseRunsAux p r b l → c ∈ l ∨ c = r := by
  intro b l
  induction l generalizing b with
  | nil => intro h; simp [collapseRunsAux] at h
  | cons a rest ih =>
    intro h
    by_cases hp : p a = true
    · cases b with
      | true =>
        rw [show collapseRunsAux p r true (a :: rest) =
            collapseRunsAux p r true rest from by simp [collapseRunsAux, hp]] at h
        rcases ih h with h2 | h2
        · exact Or.inl (List.mem_cons_of_mem _ h2)
        · exact Or.inr h2
      | false =>
        rw [show collapseRunsAux p r false (a :: rest) =
            r :: collapseRunsAux p r true rest from by simp [collapseRunsAux, hp]] at h
        rcases List.mem_cons.1 h with h2 | h2
        · exact Or.inr h2
        · rcases ih h2 with h3 | h3
          · exact Or.inl (List.mem_cons_of_mem _ h3)
          · exact Or.inr h3
    · have hpf : p a = false := by simpa using hp
      rw [show collapseRunsAux p r b (a :: rest) =
          a :: collapseRunsAux p r false rest from by
        cases b <;> simp [collapseRunsAux, hpf]] at h
      rcases List.mem_cons.1 h with h2 | h2
      · exact Or.inl (by simp [h2])
      · rcases ih h2 with h3 | h3
        · exact Or.inl (List.mem_cons_of_mem _ h3)
        · exact Or.inr h3

theorem mem_collapseWS {c : Char} {l : PyStr} (h : c ∈ collapseWS l) :
    c ∈ l ∨ c = ' ' := mem_collapseRunsAux h

/-! ## Lemmas about `processLine` and the line structure of `clean_text` -/

theorem processLine_eq_some {l m : PyStr} (h : processLine l = some m) :
    m = pyStrip (collapseWS l) ∧ m ≠ [] ∧
      (m.length < 25 && !(m.any isMeaningfulChar)) = false := by
  unfold processLine at h
  by_cases h1 : pyStrip (collapseWS l) = []
  · simp [h1] at h
  · by_cases h2 : ((pyStrip (collapseWS l)).length < 25 &&
        !((pyStrip (collapseWS l)).any isMeaningfulChar)) = true
    · simp [h1, h2] at h
    · simp only [h1, if_false, h2, Bool.false_eq_true, Option.some.injEq] at h
      subst h
      exact ⟨rfl, h1, by simpa using h2⟩

theorem processLine_fixed {l m : PyStr} (h : processLine l = some m) :
    processLine m = some m := by
  obtain ⟨hm, hne, hcond⟩ := processLine_eq_some h
  have hws : wsGoodB m = true := by
    rw [hm]
    exact wsGoodB_pyStrip (collapseWS_wsGood l)
  have hcol : collapseWS m = m := collapseWS_eq_self hws
  have hstr : pyStrip m = m := by rw [hm]; exact pyStrip_idem _
  unfold processLine
  rw [hcol, hstr]
  simp [hne, hcond]

theorem processLine_strip_fixed {l m : PyStr} (h : processLine l = some m) :
    pyStrip m = m := by
  rw [(processLine_eq_some h).1]
  exact pyStrip_idem _

theorem processLine_not_mem {l m : PyStr} {x : Char} (h : processLine l = some m)
    (hx : x ∉ l) (hxs : x ≠ ' ') : x ∉ m := by
  intro hmem
  rw [(processLine_eq_some h).1] at hmem
  rcases mem_collapseWS (mem_pyStrip hmem) with h2 | h2
  · exact hx h2
  · exact hxs h2

theorem splitOnNL_ne_nil : ∀ (l : PyStr), splitOnNL l ≠ [] := by
  intro l
  induction l with
  | nil => simp [splitOnNL]
  | cons c rest ih =>
    by_cases hc : c = '\n'
    · simp [splitOnNL, hc]
    · simp only [splitOnNL, hc, if_false]
      cases hs : splitOnNL rest with
      | nil => exact absurd hs ih
      | cons g gs => simp

theorem mem_splitOnNL_no_nl : ∀ {l piece : PyStr}, piece ∈ splitOnNL l →
    '\n' ∉ piece := by
  intro l
  induction l with
  | nil =>
    intro piece h
    simp [splitOnNL] at h
    simp [h]
  | cons c rest ih =>
    intro piece h
    by_cases hc : c = '\n'
    · simp only [splitOnNL, hc, if_true, List.mem_cons] at h
      rcases h with h | h
      · simp [h]
      · exact ih h
    · simp only [splitOnNL, hc, if_false] at h
      cases hs : splitOnNL rest with
      | nil => exact absurd hs (splitOnNL_ne_nil rest)
      | cons g gs =>
        rw [hs] at h
        rcases List.mem_cons.1 h with h2 | h2
        · subst h2
          intro hmem
          rcases List.mem_cons.1 hmem with h3 | h3
          · exact hc h3.symm
          · exact ih (hs ▸ List.mem_cons_self g gs) h3
        · exact ih (hs ▸ List.mem_cons_of_mem g h2)

theorem splitOnNL_no_nl : ∀ {l : PyStr}, '\n' ∉ l → splitOnNL l = [l] := by
  intro l
  induction l with
  | nil => intro; rfl
  | cons c rest ih =>
    intro h
    have hc : ¬(c = '\n') := fun he => h (by simp [he])
    have hr : '\n' ∉ rest := fun hm => h (List.mem_cons_of_mem _ hm)
    simp only [splitOnNL, hc, if_false, ih hr]

theorem splitOnNL_append_nl : ∀ {l t : PyStr}, '\n' ∉ l →
    splitOnNL (l ++ '\n' :: t) = l :: splitOnNL t := by
  intro l
  induction l with
  | nil => intro t _; simp [splitOnNL]
  | cons c rest ih =>
    intro t h
    have hc : ¬(c = '\n') := fun he => h (by simp [he])
    have hr : '\n' ∉ rest := fun hm => h (List.mem_cons_of_mem _ hm)
    rw [List.cons_append]
    simp only [splitOnNL, hc, if_false, ih hr]

theorem splitOnNL_joinNL : ∀ {L : List PyStr}, L ≠ [] → (∀ l ∈ L, '\n' ∉ l) →
    splitOnNL (joinNL L) = L := by
  intro L
  induction L with
  | nil => intro h; cases h rfl
  | cons l ls ih =>
    intro _ h
    cases ls with
    | nil =>
      rw [show joinNL [l] = l from rfl]
      exact splitOnNL_no_nl (h l (by simp))
    | cons l2 ls' =>
      rw [show joinNL (l :: l2 :: ls') = l ++ '\n' :: joinNL (l2 :: ls') from rfl]
      rw [splitOnNL_append_nl (h l (by simp))]
      rw [ih (by simp) (fun x hx => h x (List.mem_cons_of_mem _ hx))]

theorem filterMap_processLine_self : ∀ {L : List PyStr},
    (∀ m ∈ L, processLine m = some m) → L.filterMap processLine = L := by
  intro L
  induction L with
  | nil => intro; rfl
  | cons m ls ih =>
    intro h
    rw [List.filterMap_cons, h m (by simp), ih (fun x hx => h x (List.mem_cons_of_mem _ hx))]

/-! ## Lemmas about newline handling -/

theorem replaceCRLF_no_cr : ∀ {l : PyStr}, '\r' ∉ l → replaceCRLF l = l := by
  intro l
  induction l with
  | nil => intro; rfl
  | cons c rest ih =>
    intro h
    have hc : ¬(c = '\r') := fun he => h (by simp [he])
    cases rest with
    | nil => rfl
    | cons d r' =>
      rw [show replaceCRLF (c :: d :: r') =
          if c = '\r' ∧ d = '\n' then '\n' :: replaceCRLF r'
          else c :: replaceCRLF (d :: r') from rfl]
      rw [if_neg (fun hand => hc hand.1)]
      rw [ih (fun hm => h (List.mem_cons_of_mem _ hm))]

theorem replaceCR_no_cr : ∀ {l : PyStr}, '\r' ∉ l → replaceCR l = l := by
  intro l
  induction l with
  | nil => intro; rfl
  | cons c rest ih =>
    intro h
    have hc : ¬(c = '\r') := fun he => h (by simp [he])
    show (if c = '\r' then '\n' else c) :: replaceCR rest = c :: rest
    rw [if_neg hc, ih (fun hm => h (List.mem_cons_of_mem _ hm))]

theorem normNL_no_cr {l : PyStr} (h : '\r' ∉ l) : normNL l = l := by
  unfold normNL
  rw [replaceCRLF_no_cr h, replaceCR_no_cr h]

theorem joinNL_ne_nil {L : List PyStr} (hL : L ≠ []) (h : ∀ l ∈ L, l ≠ []) :
    joinNL L ≠ [] := by
  cases L with
  | nil => cases hL rfl
  | cons l ls =>
    cases ls with
    | nil => exact h l (by simp)
    | cons l2 ls' =>
      rw [show joinNL (l :: l2 :: ls') = l ++ '\n' :: joinNL (l2 :: ls') from rfl]
      simp

theorem mem_joinNL {c : Char} : ∀ {L : List PyStr}, c ∈ joinNL L →
    (∃ l ∈ L, c ∈ l) ∨ c = '\n' := by
  intro L
  induction L with
  | nil => intro h; cases h
  | cons l ls ih =>
    intro h
    cases ls with
    | nil => exact Or.inl ⟨l, by simp, h⟩
    | cons l2 ls' =>
      rw [show joinNL (l :: l2 :: ls') = l ++ '\n' :: joinNL (l2 :: ls') from rfl] at h
      rcases List.mem_append.1 h with h2 | h2
      · exact Or.inl ⟨l, by simp, h2⟩
      · rcases List.mem_cons.1 h2 with h3 | h3
        · exact Or.inr h3
        · rcases ih h3 with ⟨x, hx, hcx⟩ | h4
          · exact Or.inl ⟨x, List.mem_cons_of_mem _ hx, hcx⟩
          · exact Or.inr h4

theorem firstOk_append {p : Char → Bool} {a b : PyStr} (ha : a ≠ []) :
    firstOk p (a ++ b) = firstOk p a := by
  cases a with
  | nil => cases ha rfl
  | cons c r => rfl

theorem lastOk_append {p : Char → Bool} {a b : PyStr} (hb : b ≠ []) :
    lastOk p (a ++ b) = lastOk p b := by
  unfold lastOk
  rw [List.reverse_append]
  exact firstOk_append (by simpa using hb)

theorem firstOk_joinNL {p : Char → Bool} : ∀ {L : List PyStr}, L ≠ [] →
    (∀ l ∈ L, l ≠ [] ∧ firstOk p l = true) → firstOk p (joinNL L) = true := by
  intro L
  cases L with
  | nil => intro h; cases h rfl
  | cons l ls =>
    intro _ h
    cases ls with
    | nil => exact (h l (by simp)).2
    | cons l2 ls' =>
      rw [show joinNL (l :: l2 :: ls') = l ++ '\n' :: joinNL (l2 :: ls') from rfl]
      rw [firstOk_append (h l (by simp)).1]
      exact (h l (by simp)).2

theorem lastOk_joinNL {p : Char → Bool} : ∀ {L : List PyStr},
    (∀ l ∈ L, l ≠ [] ∧ lastOk p l = true) →
    lastOk p (joinNL L) = true := by
  intro L
  induction L with
  | nil => intro _; simp [lastOk, firstOk, joinNL]
  | cons l ls ih =>
    intro h
    cases ls with
    | nil => exact (h l (by simp)).2
    | cons l2 ls' =>
      rw [show joinNL (l :: l2 :: ls') = l ++ '\n' :: joinNL (l2 :: ls') from rfl]
      have hJ : joinNL (l2 :: ls') ≠ [] :=
        joinNL_ne_nil (by simp) (fun x hx => (h x (List.mem_cons_of_mem _ hx)).1)
      rw [lastOk_append (by simp)]
      rw [show ('\n' :: joinNL (l2 :: ls') : PyStr) = ['\n'] ++ joinNL (l2 :: ls') from rfl]
      rw [lastOk_append hJ]
      exact ih (fun x hx => h x (List.mem_cons_of_mem _ hx))

/-! ## Lemmas about blank-line structure -/

theorem noDoubleNL_cons {c : Char} {l : PyStr}
    (h2 : c ≠ '\n' ∨ firstOk (fun d => decide (d = '\n')) l = true)
    (hl : noDoubleNL l = true) : noDoubleNL (c :: l) = true := by
  cases l with
  | nil => rfl
  | cons d r =>
    simp only [noDoubleNL, Bool.and_eq_true, Bool.not_eq_true']
    refine ⟨?_, hl⟩
    rcases h2 with h2 | h2
    · simp [h2]
    · simp only [firstOk, Bool.not_eq_true', decide_eq_false_iff_not] at h2
      simp [h2]

theorem noDoubleNL_tail {c : Char} {l : PyStr} (h : noDoubleNL (c :: l) = true) :
    noDoubleNL l = true := by
  cases l with
  | nil => rfl
  | cons d r =>
    simp only [noDoubleNL, Bool.and_eq_true] at h
    exact h.2

theorem noDoubleNL_adj {c : Char} {l : PyStr} (h : noDoubleNL (c :: l) = true)
    (hc : c = '\n') : firstOk (fun d => decide (d = '\n')) l = true := by
  cases l with
  | nil => rfl
  | cons d r =>
    simp only [noDoubleNL, Bool.and_eq_true, Bool.not_eq_true'] at h
    rcases h with ⟨hadj, -⟩
    rw [Bool.and_eq_false_iff] at hadj
    rcases hadj with hadj | hadj
    · rw [hc] at hadj; simp at hadj
    · simp [firstOk, hadj]

theorem noDoubleNL_of_no_nl : ∀ {l : PyStr}, '\n' ∉ l → noDoubleNL l = true := by
  intro l
  induction l with
  | nil => intro; rfl
  | cons c rest ih =>
    intro h
    refine noDoubleNL_cons (Or.inl fun he => h (by simp [he]))
      (ih fun hm => h (List.mem_cons_of_mem _ hm))

theorem noDoubleNL_append_nl : ∀ {l J : PyStr}, '\n' ∉ l →
    firstOk (fun d => decide (d = '\n')) J = true → noDoubleNL J = true →
    noDoubleNL (l ++ '\n' :: J) = true := by
  intro l
  induction l with
  | nil =>
    intro J _ hfo hJ
    exact noDoubleNL_cons (Or.inr hfo) hJ
  | cons c rest ih =>
    intro J h hfo hJ
    rw [List.cons_append]
    refine noDoubleNL_cons (Or.inl fun he => h (by simp [he])) ?_
    exact ih (fun hm => h (List.mem_cons_of_mem _ hm)) hfo hJ

theorem noDoubleNL_joinNL : ∀ {L : List PyStr},
    (∀ l ∈ L, l ≠ [] ∧ '\n' ∉ l) → noDoubleNL (joinNL L) = true := by
  intro L
  induction L with
  | nil => intro; rfl
  | cons l ls ih =>
    intro h
    cases ls with
    | nil => exact noDoubleNL_of_no_nl (h l (by simp)).2
    | cons l2 ls' =>
      rw [show joinNL (l :: l2 :: ls') = l ++ '\n' :: joinNL (l2 :: ls') from rfl]
      have hJfo : firstOk (fun d => decide (d = '\n')) (joinNL (l2 :: ls')) = true := by
        refine firstOk_joinNL (by simp) ?_
        intro x hx
        refine ⟨(h x (List.mem_cons_of_mem _ hx)).1, ?_⟩
        cases x with
        | nil => rfl
        | cons y ys =>
          have : '\n' ∉ y :: ys := (h _ (List.mem_cons_of_mem _ hx)).2
          simp only [firstOk, Bool.not_eq_true', decide_eq_false_iff_not]
          exact fun he => this (by simp [he])
      exact noDoubleNL_append_nl (h l (by simp)).2 hJfo
        (ih fun x hx => h x (List.mem_cons_of_mem _ hx))

theorem collapseNLAux_noop : ∀ {l : PyStr} (k : Nat), noDoubleNL l = true →
    (k ≤ 1 ∨ firstOk (fun d => decide (d = '\n')) l = true) →
    collapseNLAux k l = l := by
  intro l
  induction l with
  | nil => intro k _ _; rfl
  | cons c rest ih =>
    intro k hl hk
    by_cases hc : c = '\n'
    · have hk1 : k < 2 := by
        rcases hk with hk | hk
        · omega
        · simp only [firstOk, Bool.not_eq_true', decide_eq_false_iff_not] at hk
          exact absurd hc hk
      simp only [collapseNLAux, hc, if_true, hk1]
      rw [ih (k + 1) (noDoubleNL_tail hl) (Or.inr (noDoubleNL_adj hl hc))]
    · simp only [collapseNLAux, hc, if_false]
      rw [ih 0 (noDoubleNL_tail hl) (Or.inl (by omega))]

theorem collapseNL_eq_self {l : PyStr} (h : noDoubleNL l = true) :
    collapseNL l = l :=
  collapseNLAux_noop 0 h (Or.inl (by omega))

theorem splitParasAux_noNN : ∀ {l : PyStr} (cur : PyStr) (nl : Nat),
    noDoubleNL l = true → nl ≤ 1 →
    (nl = 1 → firstOk (fun d => decide (d = '\n')) l = true) →
    splitParasAux cur nl l = [cur ++ List.replicate nl '\n' ++ l] := by
  intro l
  induction l with
  | nil =>
    intro cur nl _ hnl _
    have : ¬(2 ≤ nl) := by omega
    simp [splitParasAux, this]
  | cons c rest ih =>
    intro cur nl hl hnl hfo
    by_cases hc : c = '\n'
    · have hnl0 : nl = 0 := by
        rcases Nat.eq_or_lt_of_le hnl with h1 | h1
        · exfalso
          have := hfo (by omega)
          simp only [firstOk, Bool.not_eq_true', decide_eq_false_iff_not] at this
          exact this hc
        · omega
      subst hnl0
      simp only [splitParasAux, hc, if_true]
      rw [ih cur 1 (noDoubleNL_tail hl) (by omega)
        (fun _ => noDoubleNL_adj hl hc)]
      simp [hc]
    · have h2 : ¬(2 ≤ nl) := by omega
      simp only [splitParasAux, hc, if_false, h2]
      rw [ih (cur ++ List.replicate nl '\n' ++ [c]) 0 (noDoubleNL_tail hl)
        (by omega) (by omega)]
      simp

theorem splitParas_single {l : PyStr} (h : noDoubleNL l = true) :
    splitParas l = [l] := by
  unfold splitParas
  rw [splitParasAux_noNN [] 0 h (by omega) (by omega)]
  simp

/-! ## Structure of `clean_text` output -/

theorem mem_of_mem_splitOnNL : ∀ {l piece : PyStr} {c : Char},
    piece ∈ splitOnNL l → c ∈ piece → c ∈ l := by
  intro l
  induction l with
  | nil =>
    intro piece c h hc
    simp [splitOnNL] at h
    subst h
    cases hc
  | cons a rest ih =>
    intro piece c h hc
    by_cases ha : a = '\n'
    · simp only [splitOnNL, ha, if_true, List.mem_cons] at h
      rcases h with h | h
      · subst h; cases hc
      · exact List.mem_cons_of_mem _ (ih h hc)
    · simp only [splitOnNL, ha, if_false] at h
      cases hs : splitOnNL rest with
      | nil => exact absurd hs (splitOnNL_ne_nil rest)
      | cons g gs =>
        rw [hs] at h
        rcases List.mem_cons.1 h with h2 | h2
        · subst h2
          rcases List.mem_cons.1 hc with h3 | h3
          · simp [h3]
          · exact List.mem_cons_of_mem _ (ih (hs ▸ List.mem_cons_self g gs) h3)
        · exact List.mem_cons_of_mem _ (ih (hs ▸ List.mem_cons_of_mem g h2) hc)

theorem normNL_out_no_cr (l : PyStr) : '\r' ∉ normNL l := by
  unfold normNL replaceCR
  intro h
  obtain ⟨a, -, ha⟩ := List.mem_map.1 h
  by_cases h2 : a = '\r' <;> simp [h2] at ha

theorem keptLines_good {t : PyStr} {m : PyStr}
    (hm : m ∈ (splitOnNL (normNL t)).filterMap processLine) :
    processLine m = some m ∧ m ≠ [] ∧ '\n' ∉ m ∧ '\r' ∉ m ∧ pyStrip m = m := by
  obtain ⟨a, ha, hfa⟩ := List.mem_filterMap.1 hm
  refine ⟨processLine_fixed hfa, (processLine_eq_some hfa).2.1, ?_, ?_,
    processLine_strip_fixed hfa⟩
  · exact processLine_not_mem hfa (mem_splitOnNL_no_nl ha) (by decide)
  · refine processLine_not_mem hfa ?_ (by decide)
    intro hmem
    exact normNL_out_no_cr t (mem_of_mem_splitOnNL ha hmem)

theorem strip_fixed_firstOk {m : PyStr} (h : pyStrip m = m) :
    firstOk isPySpace m = true := by
  rw [← h]
  exact firstOk_pyStrip m

theorem strip_fixed_lastOk {m : PyStr} (h : pyStrip m = m) :
    lastOk isPySpace m = true := by
  rw [← h]
  exact lastOk_pyStrip m

theorem strip_collapse_join {L : List PyStr}
    (hgood : ∀ m ∈ L, m ≠ [] ∧ '\n' ∉ m ∧ pyStrip m = m) :
    pyStrip (collapseNL (joinNL L)) = joinNL L := by
  cases L with
  | nil => rfl
  | cons m ls =>
    have hnn : noDoubleNL (joinNL (m :: ls)) = true :=
      noDoubleNL_joinNL fun x hx => ⟨(hgood x hx).1, (hgood x hx).2.1⟩
    rw [collapseNL_eq_self hnn]
    refine pyStrip_eq_self ?_ ?_
    · exact firstOk_joinNL (by simp) fun x hx =>
        ⟨(hgood x hx).1, strip_fixed_firstOk (hgood x hx).2.2⟩
    · exact lastOk_joinNL fun x hx =>
        ⟨(hgood x hx).1, strip_fixed_lastOk (hgood x hx).2.2⟩

theorem cleanText_eq_joinNL {t : PyStr} (h : t ≠ []) :
    cleanText t = joinNL ((splitOnNL (normNL t)).filterMap processLine) := by
  unfold cleanText
  rw [if_neg h]
  exact strip_collapse_join fun m hm =>
    ⟨(keptLines_good hm).2.1, (keptLines_good hm).2.2.1, (keptLines_good hm).2.2.2.2⟩

theorem cleanText_noDoubleNL (t : PyStr) : noDoubleNL (cleanText t) = true := by
  by_cases h : t = []
  · subst h; rfl
  · rw [cleanText_eq_joinNL h]
    exact noDoubleNL_joinNL fun x hx =>
      ⟨(keptLines_good hx).2.1, (keptLines_good hx).2.2.1⟩

theorem cleanText_strip_fixed (t : PyStr) : pyStrip (cleanText t) = cleanText t := by
  by_cases h : t = []
  · subst h; rfl
  · rw [cleanText_eq_joinNL h]
    cases hL : (splitOnNL (normNL t)).filterMap processLine with
    | nil => rfl
    | cons m ls =>
      refine pyStrip_eq_self ?_ ?_
      · refine firstOk_joinNL (by simp) fun x hx => ?_
        have := keptLines_good (hL ▸ hx)
        exact ⟨this.2.1, strip_fixed_firstOk this.2.2.2.2⟩
      · refine lastOk_joinNL fun x hx => ?_
        have := keptLines_good (hL ▸ hx)
        exact ⟨this.2.1, strip_fixed_lastOk this.2.2.2.2⟩

theorem cleanText_no_cr (t : PyStr) : '\r' ∉ cleanText t := by
  by_cases h : t = []
  · subst h; simp [cleanText]
  · rw [cleanText_eq_joinNL h]
    intro hmem
    rcases mem_joinNL hmem with ⟨x, hx, hcx⟩ | h2
    · exact (keptLines_good hx).2.2.2.1 hcx
    · cases h2

theorem cleanText_idem (t : PyStr) : cleanText (cleanText t) = cleanText t := by
  by_cases h : t = []
  · subst h; rfl
  · by_cases h2 : cleanText t = []
    · rw [h2]; rfl
    · rw [cleanText_eq_joinNL h] at h2 ⊢
      rw [cleanText_eq_joinNL (by exact h2)]
      set L := (splitOnNL (normNL t)).filterMap processLine with hLdef
      have hgood : ∀ m ∈ L, processLine m = some m ∧ m ≠ [] ∧ '\n' ∉ m ∧
          '\r' ∉ m ∧ pyStrip m = m := fun m hm => keptLines_good hm
      have hLne : L ≠ [] := by
        intro he
        rw [he] at h2
        exact h2 rfl
      have hnocr : '\r' ∉ joinNL L := by
        intro hmem
        rcases mem_joinNL hmem with ⟨x, hx, hcx⟩ | hx
        · exact (hgood x hx).2.2.2.1 hcx
        · cases hx
      rw [normNL_no_cr hnocr]
      rw [splitOnNL_joinNL hLne fun x hx => (hgood x hx).2.2.1]
      rw [filterMap_processLine_self fun x hx => (hgood x hx).1]

/-! ## Lemmas about the chunker -/

theorem parasOf_cleanText {t : PyStr} (h : cleanText t ≠ []) :
    parasOf (cleanText t) = [cleanText t] := by
  unfold parasOf
  rw [splitParas_single (cleanText_noDoubleNL t)]
  rw [List.filterMap_cons]
  simp only [cleanText_strip_fixed t, h, if_false]
  rfl

theorem chunkTWP_map_text (u t : PyStr) (m o : Int) :
    (chunkTextWithProvenance u t m o).map (fun c => c.text) =
      chunkByChars (cleanText t) m o := by
  unfold chunkTextWithProvenance
  by_cases h : cleanText t = []
  · rw [if_pos h, h]
    rfl
  · rw [if_neg h]
    rw [parasOf_cleanText h]
    dsimp only
    rw [show joinDoubleNL [cleanText t] = cleanText t from rfl]
    rw [List.map_map]
    exact List.enum_map_snd _

theorem chunkLoop_mem_length : ∀ (fuel : Nat) {t : PyStr} {maxN step : Nat}
    {hs : 0 < step} {start : Nat}, t.length - start ≤ fuel →
    ∀ ch ∈ chunkLoop t maxN step hs start, ch.length ≤ maxN := by
  intro fuel
  induction fuel with
  | zero =>
    intro t maxN step hs start hf ch hch
    rw [chunkLoop.eq_def] at hch
    rw [if_neg (by omega)] at hch
    cases hch
  | succ n ih =>
    intro t maxN step hs start hf ch hch
    rw [chunkLoop.eq_def] at hch
    by_cases hlt : start < t.length
    · rw [if_pos hlt] at hch
      simp only at hch
      rcases List.mem_append.1 hch with h1 | h1
      · by_cases hemp : pyStrip ((t.drop start).take
            (min (start + maxN) t.length - start)) = []
        · rw [if_pos hemp] at h1
          cases h1
        · rw [if_neg hemp] at h1
          rcases List.mem_cons.1 h1 with h2 | h2
          · rw [h2]
            calc (pyStrip ((t.drop start).take
                    (min (start + maxN) t.length - start))).length
                ≤ ((t.drop start).take
                    (min (start + maxN) t.length - start)).length :=
                  pyStrip_length_le _
              _ ≤ maxN := by
                  rw [List.length_take]
                  omega
          · cases h2
      · by_cases hend : t.length ≤ min (start + maxN) t.length
        · rw [if_pos hend] at h1
          cases h1
        · rw [if_neg hend] at h1
          exact ih (by omega) ch h1
    · rw [if_neg hlt] at hch
      cases hch

theorem chunkByChars_mem_length {t : PyStr} {m o : Int} (hm : 1 ≤ m) :
    ∀ ch ∈ chunkByChars t m o, ch.length ≤ m.toNat := by
  intro ch hch
  unfold chunkByChars at hch
  by_cases ht : t = []
  · rw [if_pos ht] at hch
    cases hch
  · rw [if_neg ht, dif_neg (by omega)] at hch
    exact chunkLoop_mem_length ((pyStrip t).length - 0) (by omega) ch hch

theorem chunkByChars_single {t : PyStr} {m o : Int} (hm : 1 ≤ m) (ht : t ≠ [])
    (hstrip : pyStrip t = t) (hlen : t.length ≤ m.toNat) :
    chunkByChars t m o = [t] := by
  unfold chunkByChars
  rw [if_neg ht, dif_neg (by omega), hstrip]
  rw [chunkLoop.eq_def]
  have h0 : 0 < t.length := List.length_pos.2 ht
  rw [if_pos h0]
  have he : min (0 + m.toNat) t.length = t.length := by omega
  simp only [he]
  rw [List.drop_zero, Nat.sub_zero, List.take_length, hstrip]
  rw [if_neg ht, if_pos (le_refl _)]
  rfl

/-! ## Evaluation lemmas for the concrete chunking instance -/

theorem chunkLoop_para35_s2 : chunkLoop para35 20 10 (by omega) 20 =
    [("uvwxyzabcdefghi").toList] := by
  rw [chunkLoop.eq_def]
  norm_num [show para35.length = 35 from by decide,
    show (para35.drop 20).take (35 - 20) = ("uvwxyzabcdefghi").toList from by decide,
    show pyStrip (("uvwxyzabcdefghi").toList) = ("uvwxyzabcdefghi").toList from by decide,
    show ("uvwxyzabcdefghi").toList ≠ ([] : PyStr) from by decide]
  decide

theorem chunkLoop_para35_s1 : chunkLoop para35 20 10 (by omega) 10 =
    [("klmnopqrstuvwxyzabcd").toList, ("uvwxyzabcdefghi").toList] := by
  rw [chunkLoop.eq_def]
  norm_num [show para35.length = 35 from by decide,
    show (para35.drop 10).take (30 - 10) = ("klmnopqrstuvwxyzabcd").toList from by decide,
    show pyStrip (("klmnopqrstuvwxyzabcd").toList) = ("klmnopqrstuvwxyzabcd").toList from
      by decide,
    show ("klmnopqrstuvwxyzabcd").toList ≠ ([] : PyStr) from by decide,
    chunkLoop_para35_s2]
  decide

theorem chunkLoop_para35_s0 : chunkLoop para35 20 10 (by omega) 0 =
    [("abcdefghijklmnopqrst").toList, ("klmnopqrstuvwxyzabcd").toList,
      ("uvwxyzabcdefghi").toList] := by
  rw [chunkLoop.eq_def]
  norm_num [show para35.length = 35 from by decide,
    show (para35.drop 0).take (20 - 0) = ("abcdefghijklmnopqrst").toList from by decide,
    show pyStrip (("abcdefghijklmnopqrst").toList) = ("abcdefghijklmnopqrst").toList from
      by decide,
    show ("abcdefghijklmnopqrst").toList ≠ ([] : PyStr) from by decide,
    chunkLoop_para35_s1]
  decide

theorem chunkByChars_para35 : chunkByChars para35 20 10 =
    [("abcdefghijklmnopqrst").toList, ("klmnopqrstuvwxyzabcd").toList,
      ("uvwxyzabcdefghi").toList] := by
  rw [chunkByChars]
  norm_num [show pyStrip para35 = para35 from by decide,
    show para35 ≠ ([] : PyStr) from by decide]
  exact chunkLoop_para35_s0

/-! ## Claim C1 -/

/-- C1 as stated is false: with `max_chars = 0` (and any text that cleans
to a nonempty string) `_chunk_by_chars` takes its `max_chars <= 0` branch
and returns the whole text as one chunk, whose length 13 exceeds 0. -/
theorem c1_counterexample :
    ¬ (∀ c ∈ chunkTextWithProvenance (("http://e.x").toList)
        (("Hello, world.").toList) 0 0, (c.text.length : Int) ≤ 0) := by
  decide

/-- C1 (amended): for every source_url, text and overlap, and every
`max_chars ≥ 1`, every chunk returned by `chunk_text_with_provenance` has
text of length at most `max_chars`.  (For `max_chars ≤ 0` the code
returns the whole cleaned text as a single chunk instead.) -/
theorem c1_chunk_size_bound (pageUrl text : PyStr) (maxChars overlap : Int)
    (hm : 1 ≤ maxChars) :
    ∀ c ∈ chunkTextWithProvenance pageUrl text maxChars overlap,
      (c.text.length : Int) ≤ maxChars := by
  intro c hc
  have hmem : c.text ∈ (chunkTextWithProvenance pageUrl text maxChars overlap).map
      (fun c => c.text) := List.mem_map_of_mem _ hc
  rw [chunkTWP_map_text] at hmem
  have := chunkByChars_mem_length hm c.text hmem
  omega

/-- Witness for C1: the amended bound applied at a concrete input. -/
theorem c1_chunk_size_bound_witness :
    (1 : Int) ≤ 5 ∧ ∀ c ∈ chunkTextWithProvenance (("http://e.x").toList)
      (("Hello, world.").toList) 5 0, (c.text.length : Int) ≤ 5 :=
  ⟨by norm_num, c1_chunk_size_bound _ _ _ _ (by norm_num)⟩

/-! ## Claim C3 -/

/-- C3: `clean_text` is idempotent: for every string `s`,
`clean_text(clean_text(s)) = clean_text(s)`. -/
theorem c3_clean_text_idempotent (s : PyStr) :
    cleanText (cleanText s) = cleanText s := cleanText_idem s

/-! ## Claim C5 -/

/-- C5 as stated is false: on a 35-character cleaned text with
`max_chars = 20` and `overlap = 10`, `chunk_text_with_provenance`
produces three sliding-window chunks (stride `max_chars - overlap`),
while the paragraph-accumulate-and-flush algorithm described by the spec
produces two (the hard-split slices, with or without the overlap
prefix). -/
theorem c5_counterexample :
    (chunkTextWithProvenance (("http://e.x").toList) para35 20 10).map
      (fun c => c.text) ≠ specParagraphChunks (cleanText para35) 20 10 := by
  rw [chunkTWP_map_text, show cleanText para35 = para35 from by decide,
    chunkByChars_para35]
  decide

/-- C5 (amended): `chunk_text_with_provenance` splits the cleaned text on
blank-line paragraph boundaries, but since `clean_text` drops every blank
line this always yields a single paragraph, and the function then simply
character-chunks the cleaned text with a sliding window of width
`max_chars` and stride `max_chars - overlap` (no paragraph buffer is
accumulated); consequently a nonempty cleaned text no longer than
`max_chars ≥ 1` is returned as exactly one chunk, never split. -/
theorem c5_single_paragraph_chunking (pageUrl text : PyStr) (maxChars overlap : Int) :
    ((chunkTextWithProvenance pageUrl text maxChars overlap).map (fun c => c.text) =
      chunkByChars (cleanText text) maxChars overlap) ∧
    (1 ≤ maxChars → cleanText text ≠ [] →
      (cleanText text).length ≤ maxChars.toNat →
      (chunkTextWithProvenance pageUrl text maxChars overlap).map (fun c => c.text) =
        [cleanText text]) := by
  refine ⟨chunkTWP_map_text _ _ _ _, fun hm hne hlen => ?_⟩
  rw [chunkTWP_map_text]
  exact chunkByChars_single hm hne (cleanText_strip_fixed text) hlen

/-- Witness for C5: the amended statement applied at a concrete input
whose cleaned text (13 characters) fits in one 100-character chunk. -/
theorem c5_single_paragraph_chunking_witness :
    (1 : Int) ≤ 100 ∧ cleanText (("Hello, world.").toList) ≠ [] ∧
    (cleanText (("Hello, world.").toList)).length ≤ (100 : Int).toNat ∧
    (chunkTextWithProvenance (("http://e.x").toList) (("Hello, world.").toList)
      100 0).map (fun c => c.text) = [cleanText (("Hello, world.").toList)] :=
  ⟨by norm_num, by decide, by decide,
    (c5_single_paragraph_chunking _ _ _ _).2 (by norm_num) (by decide) (by decide)⟩

/-! ## Claim C7 -/

/-- C7 as stated is false: both lines of `"a   b\n\n\n\nc"` are shorter
than 25 characters and contain no digit or punctuation, so the
noise-line filter of `clean_text` drops them and the result is the empty
string, not `"a b\n\nc"`. -/
theorem c7_counterexample :
    cleanText (("a   b\n\n\n\nc").toList) ≠ ("a b\n\nc").toList := by decide

/-- C7 (amended): `clean_text("a   b\n\n\n\nc")` is the empty string,
because lines shorter than 25 characters without digits or punctuation
are dropped; on lines that survive the filter, horizontal whitespace is
collapsed to one space and blank lines are removed entirely (not
collapsed to a single blank line):
`clean_text("a,   b.\n\n\n\nc.") = "a, b.\nc."`. -/
theorem c7_whitespace_behavior :
    cleanText (("a   b\n\n\n\nc").toList) = [] ∧
    cleanText (("a,   b.\n\n\n\nc.").toList) = ("a, b.\nc.").toList := by decide

/-! ## Claim C10 -/

/-- C10: the output of `clean_text` never contains two consecutive
newlines (blank lines are dropped before lines are rejoined), so the
blank-line paragraph split performed by `chunk_text_with_provenance`
always yields exactly one paragraph on a nonempty cleaned text. -/
theorem c10_no_blank_line (s : PyStr) :
    noDoubleNL (cleanText s) = true ∧
    (cleanText s ≠ [] → parasOf (cleanText s) = [cleanText s]) :=
  ⟨cleanText_noDoubleNL s, fun h => parasOf_cleanText h⟩

/-- Witness for C10: the paragraph split of a concrete nonempty cleaned
text. -/
theorem c10_no_blank_line_witness :
    cleanText (("Hello, world.").toList) ≠ [] ∧
    parasOf (cleanText (("Hello, world.").toList)) =
      [cleanText (("Hello, world.").toList)] :=
  ⟨by decide, (c10_no_blank_line _).2 (by decide)⟩

/-! ## Lemmas about the crawler loop -/

theorem scrapeLoop_pages_le (join : PyStr → PyStr → PyStr) (clock : PyStr)
    (http : PyStr → Option HttpResponse) (maxPages : Nat)
    (queue seen : List PyStr) (pages : List PageResult) (allLinks : List PyStr)
    (finalRoot : PyStr) (fetched enqLog : List PyStr) :
    pages.length ≤ maxPages →
    (scrapeLoop join clock http maxPages queue seen pages allLinks finalRoot
      fetched enqLog).1.length ≤ maxPages := by
  induction queue, seen, pages, allLinks, finalRoot, fetched, enqLog
    using scrapeLoop.induct join clock http maxPages with
  | case1 seen pages allLinks finalRoot fetched enqLog =>
    intro h
    rw [scrapeLoop.eq_def]
    exact h
  | case2 seen pages allLinks finalRoot fetched enqLog g gs hlt hg ih =>
    intro h
    rw [scrapeLoop.eq_def]
    simp only [dif_pos hlt, if_pos hg]
    exact ih h
  | case3 seen pages allLinks finalRoot fetched enqLog g gs hlt hg seenP snd hsp ih =>
    intro h
    rw [scrapeLoop.eq_def]
    simp only [dif_pos hlt, if_neg hg, hsp]
    exact ih h
  | case4 seen pages allLinks finalRoot fetched enqLog g gs hlt hg seenP pr links hsp
      finalRootP pagesP allLinks' queue' enqLog' hpush ih =>
    intro h
    rw [scrapeLoop.eq_def]
    simp only [dif_pos hlt, if_neg hg, hsp]
    have hpush2 : pushLinks maxPages (seen ++ [g]) links allLinks gs enqLog =
        (allLinks', queue', enqLog') := hpush
    rw [hpush2]
    refine ih ?_
    show (pages ++ [pr]).length ≤ maxPages
    simp only [List.length_append, List.length_cons, List.length_nil]
    omega
  | case5 seen pages allLinks finalRoot fetched enqLog g gs hlt =>
    intro h
    rw [scrapeLoop.eq_def]
    simp only [dif_neg hlt]
    exact h

theorem scrapeLoop_zero (join : PyStr → PyStr → PyStr) (clock : PyStr)
    (http : PyStr → Option HttpResponse) (s : PyStr) :
    scrapeLoop join clock http 0 [s] [] [] [] s [] [s] = ([], [], s, [], [s]) := by
  rw [scrapeLoop.eq_def]
  simp

/-! ## Claim C2 -/

/-- C2: for every fetch oracle, start URL and `max_pages ≥ 0`, the pages
list returned by `scrape_site` has length at most `max_pages`, and
`max_pages = 0` yields an empty pages list. -/
theorem c2_pages_bound (join : PyStr → PyStr → PyStr) (clock : PyStr)
    (http : PyStr → Option HttpResponse) (startUrl : PyStr) (maxPages : Nat) :
    (scrapeSite join clock http startUrl maxPages).pages.length ≤ maxPages ∧
    (scrapeSite join clock http startUrl 0).pages = [] := by
  constructor
  · show (scrapeLoop join clock http maxPages [normalizeUrl startUrl] [] [] []
      (normalizeUrl startUrl) [] [normalizeUrl startUrl]).1.length ≤ maxPages
    exact scrapeLoop_pages_le _ _ _ _ _ _ _ _ _ _ _ (by simp)
  · show (scrapeLoop join clock http 0 [normalizeUrl startUrl] [] [] []
      (normalizeUrl startUrl) [] [normalizeUrl startUrl]).1 = []
    rw [scrapeLoop_zero]

/-! ## Claim C9 -/

theorem normalizeUrl_urlA : normalizeUrl urlA = urlA := by decide

theorem scrapePage_cycA : scrapePage absJoin [] cycHttp urlA =
    (some ⟨urlA, urlA, 200, ("text/html").toList, [], [], []⟩, [urlA, urlB]) := by
  decide

theorem scrapePage_cycB : scrapePage absJoin [] cycHttp urlB =
    (some ⟨urlB, urlB, 200, ("text/html").toList, [], [], []⟩, [urlA, urlB]) := by
  decide

/-- C9: on a site whose two pages always link to the same two
mutually-linking URLs (a 2-node cycle), `scrape_site` terminates — the
crawl is a total function and its run computes to an explicit value —
and fetches each of the two URLs exactly once (so at most once). -/
theorem c9_cycle_termination :
    (scrapeSite absJoin [] cycHttp urlA 10).fetched = [urlA, urlB] ∧
    (scrapeSite absJoin [] cycHttp urlA 10).fetched.count urlA ≤ 1 ∧
    (scrapeSite absJoin [] cycHttp urlA 10).fetched.count urlB ≤ 1 := by
  have hAB : urlA ≠ urlB := by decide
  have h1 : (scrapeSite absJoin [] cycHttp urlA 10).fetched = [urlA, urlB] := by
    simp [scrapeSite, normalizeUrl_urlA, scrapeLoop, scrapePage_cycA, scrapePage_cycB,
      pushLinks, hAB, hAB.symm]
  refine ⟨h1, ?_, ?_⟩ <;> rw [h1] <;> simp [hAB, List.count_cons]

/-! ## Claim C8 -/

/-- C8 as stated is false for scraper.py's `scrape_site`: on the empty
start URL it normalizes `""` to the junk URL `"https:/"` and still
passes it to `scrape_page` (one fetch attempt), as the instrumented
fetch trace shows. -/
theorem c8_counterexample : (scrapeSite absJoin [] failHttp [] 1).fetched ≠ [] := by
  simp [scrapeSite, show normalizeUrl ([] : PyStr) = ("https:/").toList from by decide,
    scrapeLoop, scrapePage, failHttp]

/-- C8 (amended): app.py's `scrape_site` does fail fast on an empty
start URL — it returns no pages and performs no fetch — while
scraper.py's `scrape_site` returns an empty crawl result (no pages, no
links) once the one attempted fetch of the normalized junk URL
`"https:/"` fails, and every URL it attempts to fetch is that junk
URL. -/
theorem c8_fail_fast_empty_start
    (joinA : PyStr → PyStr → PyStr) (soupText : PyStr → PyStr)
    (soupHrefs : PyStr → List PyStr) (httpA : PyStr → Option (PyStr × PyStr))
    (join : PyStr → PyStr → PyStr) (clock : PyStr)
    (http : PyStr → Option HttpResponse) (m mA : Nat)
    (hfail : http (("https:/").toList) = none) :
    scrapeSiteApp joinA soupText soupHrefs httpA [] mA = ([], []) ∧
    (scrapeSite join clock http [] m).pages = [] ∧
    (scrapeSite join clock http [] m).links = [] ∧
    ∀ u ∈ (scrapeSite join clock http [] m).fetched, u = ("https:/").toList := by
  have hs : normalizeUrl ([] : PyStr) = ("https:/").toList := by decide
  refine ⟨rfl, ?_⟩
  cases m with
  | zero =>
    simp [scrapeSite, hs, scrapeLoop.eq_def]
  | succ n =>
    have hfail2 : http ['h', 't', 't', 'p', 's', ':', '/'] = none := hfail
    simp [scrapeSite, hs, scrapeLoop, scrapePage, hfail2]

/-- Witness for C8: the amended statement at concrete oracles. -/
theorem c8_fail_fast_empty_start_witness :
    failHttp (("https:/").toList) = none ∧
    (scrapeSiteApp absJoin (fun h => h) (fun _ => []) (fun _ => none) [] 3 = ([], []) ∧
      (scrapeSite absJoin [] failHttp [] 3).pages = [] ∧
      (scrapeSite absJoin [] failHttp [] 3).links = [] ∧
      ∀ u ∈ (scrapeSite absJoin [] failHttp [] 3).fetched, u = ("https:/").toList) :=
  ⟨rfl, c8_fail_fast_empty_start _ _ _ _ _ _ _ 3 3 rfl⟩

/-! ## Claim C4: same-site lemmas -/

theorem sameSite_iff {a b : PyStr} : sameSite a b = true ↔
    toLowerStr (urlparsePy a).netloc = toLowerStr (urlparsePy b).netloc := by
  simp [sameSite]

theorem sameSite_refl (a : PyStr) : sameSite a a = true := sameSite_iff.2 rfl

theorem sameSite_symm {a b : PyStr} (h : sameSite a b = true) :
    sameSite b a = true := sameSite_iff.2 (sameSite_iff.1 h).symm

theorem sameSite_trans {a b c : PyStr} (h1 : sameSite a b = true)
    (h2 : sameSite b c = true) : sameSite a c = true :=
  sameSite_iff.2 ((sameSite_iff.1 h1).trans (sameSite_iff.1 h2))

theorem mem_dedupKeepOrder {u : PyStr} {l : List PyStr}
    (h : u ∈ dedupKeepOrder l) : u ∈ l := by
  unfold dedupKeepOrder at h
  suffices hgen : ∀ (l : List PyStr) (acc : List PyStr),
      u ∈ l.foldl (fun acc u => if u ∈ acc then acc else acc ++ [u]) acc →
      u ∈ acc ∨ u ∈ l by
    rcases hgen l [] h with h2 | h2
    · cases h2
    · exact h2
  intro l
  induction l with
  | nil => intro acc h2; exact Or.inl h2
  | cons x rest ih =>
    intro acc h2
    rw [List.foldl_cons] at h2
    rcases ih _ h2 with h3 | h3
    · by_cases hx : x ∈ acc
      · rw [if_pos hx] at h3
        exact Or.inl h3
      · rw [if_neg hx] at h3
        rcases List.mem_append.1 h3 with h4 | h4
        · exact Or.inl h4
        · exact Or.inr (by simp at h4; simp [h4])
    · exact Or.inr (List.mem_cons_of_mem _ h3)

theorem foldl_pred {β : Type} (P : β → Prop) :
    ∀ (l : List PyStr) (f : List β → PyStr → List β) (acc : List β),
    (∀ acc2 x y, (∀ z ∈ acc2, P z) → y ∈ f acc2 x → P y) →
    (∀ z ∈ acc, P z) → ∀ y ∈ l.foldl f acc, P y := by
  intro l
  induction l with
  | nil => intro f acc hf hacc y hy; exact hacc y hy
  | cons a rest ih =>
    intro f acc hf hacc y hy
    rw [List.foldl_cons] at hy
    exact ih f _ hf (fun z hz => hf acc a z hacc hz) y hy

theorem extractStep_sameSite {join : PyStr → PyStr → PyStr} {hostUrl : PyStr}
    {acc : List PyStr} {a y : PyStr}
    (hacc : ∀ z ∈ acc, sameSite hostUrl z = true)
    (hy : y ∈ extractStep join hostUrl acc a) : sameSite hostUrl y = true := by
  unfold extractStep at hy
  by_cases h3 : pyStrip a = []
  · rw [if_pos h3] at hy
    exact hacc y hy
  · rw [if_neg h3] at hy
    by_cases h4 : ((("mailto:").toList.isPrefixOf (pyStrip a)) ||
        (("tel:").toList.isPrefixOf (pyStrip a)) ||
        (("javascript:").toList.isPrefixOf (pyStrip a)) ||
        (("data:").toList.isPrefixOf (pyStrip a))) = true
    · rw [if_pos h4] at hy
      exact hacc y hy
    · rw [if_neg h4] at hy
      by_cases h5 : (!isHttpUrl (normalizeUrl (join hostUrl (pyStrip a)))) = true
      · rw [if_pos h5] at hy
        exact hacc y hy
      · rw [if_neg h5] at hy
        by_cases h6 : sameSite hostUrl (normalizeUrl (join hostUrl (pyStrip a))) = true
        · rw [if_pos h6] at hy
          rcases List.mem_append.1 hy with h7 | h7
          · exact hacc y h7
          · simp only [List.mem_singleton] at h7
            rw [h7]
            exact h6
        · rw [if_neg h6] at hy
          exact hacc y hy

theorem mem_extractInternalLinks_sameSite {join : PyStr → PyStr → PyStr}
    {base : PyStr} {hrefs : List PyStr} {f : Option PyStr} {u : PyStr}
    (h : u ∈ extractInternalLinks join base hrefs f) :
    sameSite (hostUrlOf base f) u = true := by
  unfold extractInternalLinks at h
  have h2 := mem_dedupKeepOrder h
  exact foldl_pred (fun y => sameSite (hostUrlOf base f) y = true) hrefs
    (extractStep join (hostUrlOf base f)) []
    (fun acc2 x y hacc hy => extractStep_sameSite hacc hy)
    (fun z hz => absurd hz (by simp)) u h2

theorem scrapeSite_def (join : PyStr → PyStr → PyStr) (clock : PyStr)
    (http : PyStr → Option HttpResponse) (startUrl : PyStr) (maxPages : Nat) :
    scrapeSite join clock http startUrl maxPages =
      { baseUrl := normalizeUrl startUrl
        finalUrl := (scrapeLoop join clock http maxPages [normalizeUrl startUrl] [] []
          [] (normalizeUrl startUrl) [] [normalizeUrl startUrl]).2.2.1
        pages := (scrapeLoop join clock http maxPages [normalizeUrl startUrl] [] []
          [] (normalizeUrl startUrl) [] [normalizeUrl startUrl]).1
        links := (scrapeLoop join clock http maxPages [normalizeUrl startUrl] [] []
          [] (normalizeUrl startUrl) [] [normalizeUrl startUrl]).2.1
        maxPages := maxPages
        fetched := (scrapeLoop join clock http maxPages [normalizeUrl startUrl] [] []
          [] (normalizeUrl startUrl) [] [normalizeUrl startUrl]).2.2.2.1
        enqueuedLog := (scrapeLoop join clock http maxPages [normalizeUrl startUrl] []
          [] [] (normalizeUrl startUrl) [] [normalizeUrl startUrl]).2.2.2.2 } := by
  unfold scrapeSite
  rcases hsl : scrapeLoop join clock http maxPages [normalizeUrl startUrl] [] [] []
    (normalizeUrl startUrl) [] [normalizeUrl startUrl] with ⟨p, a, f, ft, e⟩
  dsimp only
  rw [hsl]

theorem scrapePage_links_sameSite {join : PyStr → PyStr → PyStr} {clock : PyStr}
    {http : PyStr → Option HttpResponse} {g : PyStr} {pr : PageResult}
    {links : List PyStr}
    (H : ∀ url r, http url = some r →
      sameSite (normalizeUrl (if r.respUrl = [] then url else r.respUrl)) url = true)
    (h : scrapePage join clock http g = (some pr, links)) :
    ∀ u ∈ links, sameSite u g = true := by
  intro u hu
  unfold scrapePage at h
  cases hh : http g with
  | none =>
    rw [hh] at h
    simp at h
  | some r =>
    rw [hh] at h
    dsimp only at h
    split at h
    · have hl : links = [] := by
        have := congrArg Prod.snd h
        simpa using this
      rw [hl] at hu
      cases hu
    · have hlinks : extractInternalLinks join g r.hrefs
          (some (normalizeUrl (if r.respUrl = [] then g else r.respUrl))) = links := by
        have := congrArg Prod.snd h
        simpa using this
      rw [← hlinks] at hu
      have h1 := mem_extractInternalLinks_sameSite hu
      by_cases hF : normalizeUrl (if r.respUrl = [] then g else r.respUrl) = []
      · rw [show hostUrlOf g
            (some (normalizeUrl (if r.respUrl = [] then g else r.respUrl))) = g from by
          simp [hostUrlOf, hF]] at h1
        exact sameSite_symm h1
      · rw [show hostUrlOf g
            (some (normalizeUrl (if r.respUrl = [] then g else r.respUrl))) =
            normalizeUrl (if r.respUrl = [] then g else r.respUrl) from by
          simp [hostUrlOf, hF]] at h1
        exact sameSite_trans (sameSite_symm h1) (H g r hh)

theorem pushLinks_mem : ∀ (links : List PyStr) (maxPages : Nat)
    (seen allLinks queue enqLog : List PyStr) (u : PyStr),
    (u ∈ (pushLinks maxPages seen links allLinks queue enqLog).1 →
      u ∈ allLinks ∨ u ∈ links) ∧
    (u ∈ (pushLinks maxPages seen links allLinks queue enqLog).2.1 →
      u ∈ queue ∨ u ∈ links) ∧
    (u ∈ (pushLinks maxPages seen links allLinks queue enqLog).2.2 →
      u ∈ enqLog ∨ u ∈ links) := by
  intro links
  induction links with
  | nil =>
    intro maxPages seen allLinks queue enqLog u
    refine ⟨fun h => Or.inl ?_, fun h => Or.inl ?_, fun h => Or.inl ?_⟩ <;>
      simpa [pushLinks] using h
  | cons x rest ih =>
    intro maxPages seen allLinks queue enqLog u
    have hstep : pushLinks maxPages seen (x :: rest) allLinks queue enqLog =
        pushLinks maxPages seen rest
          (if x ∈ allLinks then allLinks else allLinks ++ [x])
          (if x ∉ seen ∧ x ∉ queue ∧ queue.length < maxPages * 5 then queue ++ [x]
            else queue)
          (if x ∉ seen ∧ x ∉ queue ∧ queue.length < maxPages * 5 then enqLog ++ [x]
            else enqLog) := by
      unfold pushLinks
      rw [List.foldl_cons]
      by_cases hc : x ∉ seen ∧ x ∉ queue ∧ queue.length < maxPages * 5 <;>
        simp only [hc, if_pos, if_neg, ite_true, ite_false] <;> rfl
    rw [hstep]
    obtain ⟨ih1, ih2, ih3⟩ := ih maxPages seen
      (if x ∈ allLinks then allLinks else allLinks ++ [x])
      (if x ∉ seen ∧ x ∉ queue ∧ queue.length < maxPages * 5 then queue ++ [x]
        else queue)
      (if x ∉ seen ∧ x ∉ queue ∧ queue.length < maxPages * 5 then enqLog ++ [x]
        else enqLog) u
    refine ⟨fun h => ?_, fun h => ?_, fun h => ?_⟩
    · rcases ih1 h with h2 | h2
      · by_cases hx : x ∈ allLinks
        · rw [if_pos hx] at h2
          exact Or.inl h2
        · rw [if_neg hx] at h2
          rcases List.mem_append.1 h2 with h3 | h3
          · exact Or.inl h3
          · simp only [List.mem_singleton] at h3
            exact Or.inr (by simp [h3])
      · exact Or.inr (List.mem_cons_of_mem _ h2)
    · rcases ih2 h with h2 | h2
      · by_cases hx : x ∉ seen ∧ x ∉ queue ∧ queue.length < maxPages * 5
        · rw [if_pos hx] at h2
          rcases List.mem_append.1 h2 with h3 | h3
          · exact Or.inl h3
          · simp only [List.mem_singleton] at h3
            exact Or.inr (by simp [h3])
        · rw [if_neg hx] at h2
          exact Or.inl h2
      · exact Or.inr (List.mem_cons_of_mem _ h2)
    · rcases ih3 h with h2 | h2
      · by_cases hx : x ∉ seen ∧ x ∉ queue ∧ queue.length < maxPages * 5
        · rw [if_pos hx] at h2
          rcases List.mem_append.1 h2 with h3 | h3
          · exact Or.inl h3
          · simp only [List.mem_singleton] at h3
            exact Or.inr (by simp [h3])
        · rw [if_neg hx] at h2
          exact Or.inl h2
      · exact Or.inr (List.mem_cons_of_mem _ h2)

theorem scrapeLoop_sameSite (join : PyStr → PyStr → PyStr) (clock : PyStr)
    (http : PyStr → Option HttpResponse) (maxPages : Nat) (s : PyStr)
    (H : ∀ url r, http url = some r →
      sameSite (normalizeUrl (if r.respUrl = [] then url else r.respUrl)) url = true)
    (queue seen : List PyStr) (pages : List PageResult) (allLinks : List PyStr)
    (finalRoot : PyStr) (fetched enqLog : List PyStr) :
    (∀ q ∈ queue, sameSite q s = true) →
    (∀ u ∈ allLinks, sameSite u s = true) →
    (∀ u ∈ enqLog, sameSite u s = true) →
    (∀ u ∈ (scrapeLoop join clock http maxPages queue seen pages allLinks
      finalRoot fetched enqLog).2.1, sameSite u s = true) ∧
    (∀ u ∈ (scrapeLoop join clock http maxPages queue seen pages allLinks
      finalRoot fetched enqLog).2.2.2.2, sameSite u s = true) := by
  induction queue, seen, pages, allLinks, finalRoot, fetched, enqLog
    using scrapeLoop.induct join clock http maxPages with
  | case1 seen pages allLinks finalRoot fetched enqLog =>
    intro _ hA hE
    rw [scrapeLoop.eq_def]
    exact ⟨hA, hE⟩
  | case2 seen pages allLinks finalRoot fetched enqLog g gs hlt hg ih =>
    intro hQ hA hE
    rw [scrapeLoop.eq_def]
    simp only [dif_pos hlt, if_pos hg]
    exact ih (fun q hq => hQ q (List.mem_cons_of_mem _ hq)) hA hE
  | case3 seen pages allLinks finalRoot fetched enqLog g gs hlt hg seenP snd hsp ih =>
    intro hQ hA hE
    rw [scrapeLoop.eq_def]
    simp only [dif_pos hlt, if_neg hg, hsp]
    exact ih (fun q hq => hQ q (List.mem_cons_of_mem _ hq)) hA hE
  | case4 seen pages allLinks finalRoot fetched enqLog g gs hlt hg seenP pr links hsp
      finalRootP pagesP allLinks' queue' enqLog' hpush ih =>
    intro hQ hA hE
    rw [scrapeLoop.eq_def]
    simp only [dif_pos hlt, if_neg hg, hsp]
    have hpush2 : pushLinks maxPages (seen ++ [g]) links allLinks gs enqLog =
        (allLinks', queue', enqLog') := hpush
    rw [hpush2]
    have hlinks : ∀ u ∈ links, sameSite u s = true := by
      intro u hu
      exact sameSite_trans (scrapePage_links_sameSite H hsp u hu)
        (hQ g (List.mem_cons_self _ _))
    refine ih ?_ ?_ ?_
    · intro q hq
      rcases (pushLinks_mem links maxPages (seen ++ [g]) allLinks gs enqLog q).2.1
          (hpush2 ▸ hq) with h2 | h2
      · exact hQ q (List.mem_cons_of_mem _ h2)
      · exact hlinks q h2
    · intro u hu
      rcases (pushLinks_mem links maxPages (seen ++ [g]) allLinks gs enqLog u).1
          (hpush2 ▸ hu) with h2 | h2
      · exact hA u h2
      · exact hlinks u h2
    · intro u hu
      rcases (pushLinks_mem links maxPages (seen ++ [g]) allLinks gs enqLog u).2.2
          (hpush2 ▸ hu) with h2 | h2
      · exact hE u h2
      · exact hlinks u h2
  | case5 seen pages allLinks finalRoot fetched enqLog g gs hlt =>
    intro _ hA hE
    rw [scrapeLoop.eq_def]
    simp only [dif_neg hlt]
    exact ⟨hA, hE⟩

theorem scrapePage_mixedA : scrapePage absJoin [] mixedSchemeHttp urlA =
    (some ⟨urlA, urlA, 200, ("text/html").toList, [], [], []⟩,
      [("http://a.com/x").toList]) := by
  decide

theorem scrapePage_mixedX :
    scrapePage absJoin [] mixedSchemeHttp (("http://a.com/x").toList) = (none, []) := by
  decide

/-- C4 as stated is false: `_same_site` compares only the lower-cased
host (netloc) and ignores the scheme, so from the `https` start page
`https://a.com/` the link `http://a.com/x` passes the filter and lands
in `links`, yet its `(scheme, host)` pair differs from the resolved
start URL's. -/
theorem c4_counterexample :
    (("http://a.com/x").toList) ∈ (scrapeSite absJoin [] mixedSchemeHttp urlA 5).links ∧
    schemeHostOf (("http://a.com/x").toList) ≠
      schemeHostOf (scrapeSite absJoin [] mixedSchemeHttp urlA 5).finalUrl := by
  have hne : (['h', 't', 't', 'p', ':', '/', '/', 'a', '.', 'c', 'o', 'm', '/', 'x'] :
      PyStr) ≠ urlA := by decide
  have hX : scrapePage absJoin [] mixedSchemeHttp
      ['h', 't', 't', 'p', ':', '/', '/', 'a', '.', 'c', 'o', 'm', '/', 'x'] =
      (none, []) := scrapePage_mixedX
  have h1 : (scrapeSite absJoin [] mixedSchemeHttp urlA 5).links =
      [("http://a.com/x").toList] := by
    simp [scrapeSite, normalizeUrl_urlA, scrapeLoop, scrapePage_mixedA,
      hX, pushLinks, hne]
  have h2 : (scrapeSite absJoin [] mixedSchemeHttp urlA 5).finalUrl = urlA := by
    simp [scrapeSite, normalizeUrl_urlA, scrapeLoop, scrapePage_mixedA,
      hX, pushLinks, hne]
  refine ⟨by rw [h1]; simp, by rw [h2]; decide⟩

/-- C4 (amended): `_same_site` compares only the normalized host, not
the scheme, and each page's links are filtered against that page's own
resolved final URL; therefore, provided no fetch redirects across hosts
(every response's resolved URL has the host of the requested URL), every
URL in `links` and every URL ever enqueued has the same normalized host
as the resolved start URL — but its scheme may differ. -/
theorem c4_links_same_host (join : PyStr → PyStr → PyStr) (clock : PyStr)
    (http : PyStr → Option HttpResponse) (startUrl : PyStr) (maxPages : Nat)
    (H : ∀ url r, http url = some r →
      sameSite (normalizeUrl (if r.respUrl = [] then url else r.respUrl)) url = true) :
    (∀ u ∈ (scrapeSite join clock http startUrl maxPages).links,
      sameSite u (scrapeSite join clock http startUrl maxPages).baseUrl = true) ∧
    (∀ u ∈ (scrapeSite join clock http startUrl maxPages).enqueuedLog,
      sameSite u (scrapeSite join clock http startUrl maxPages).baseUrl = true) := by
  have key := scrapeLoop_sameSite join clock http maxPages (normalizeUrl startUrl) H
    [normalizeUrl startUrl] [] [] [] (normalizeUrl startUrl) [] [normalizeUrl startUrl]
    (by intro q hq; simp at hq; rw [hq]; exact sameSite_refl _)
    (by intro u hu; cases hu)
    (by intro u hu; simp at hu; rw [hu]; exact sameSite_refl _)
  rw [scrapeSite_def]
  exact key

/-- Witness for C4: the amended statement on the concrete 2-page cycle
site, whose oracle never redirects across hosts. -/
theorem c4_links_same_host_witness :
    (∀ url r, cycHttp url = some r →
      sameSite (normalizeUrl (if r.respUrl = [] then url else r.respUrl)) url = true) ∧
    (∀ u ∈ (scrapeSite absJoin [] cycHttp urlA 10).links,
      sameSite u (scrapeSite absJoin [] cycHttp urlA 10).baseUrl = true) ∧
    (∀ u ∈ (scrapeSite absJoin [] cycHttp urlA 10).enqueuedLog,
      sameSite u (scrapeSite absJoin [] cycHttp urlA 10).baseUrl = true) := by
  have H : ∀ url r, cycHttp url = some r →
      sameSite (normalizeUrl (if r.respUrl = [] then url else r.respUrl)) url = true := by
    intro url r h
    unfold cycHttp at h
    by_cases h1 : url = urlA
    · rw [if_pos h1] at h
      rw [h1]
      cases h
      decide
    · rw [if_neg h1] at h
      by_cases h2 : url = urlB
      · rw [if_pos h2] at h
        rw [h2]
        cases h
        decide
      · rw [if_neg h2] at h
        cases h
  exact ⟨H, c4_links_same_host absJoin [] cycHttp urlA 10 H⟩

/-! ## Char-level facts -/

theorem char_toNat_ofNat {n : Nat} (h : n < 55296) : (Char.ofNat n).toNat = n := by
  rw [Char.ofNat, dif_pos]
  · rfl
  · exact Or.inl (by omega)

theorem char_eq_iff_toNat {c d : Char} : c = d ↔ c.toNat = d.toNat := by
  constructor
  · intro h; rw [h]
  · intro h
    apply Char.ext
    exact UInt32.ext h

theorem isUpper_iff {c : Char} : c.isUpper = true ↔ 65 ≤ c.toNat ∧ c.toNat ≤ 90 := by
  unfold Char.isUpper
  rw [Bool.and_eq_true, decide_eq_true_iff, decide_eq_true_iff]
  exact Iff.rfl

theorem isLower_iff {c : Char} : c.isLower = true ↔ 97 ≤ c.toNat ∧ c.toNat ≤ 122 := by
  unfold Char.isLower
  rw [Bool.and_eq_true, decide_eq_true_iff, decide_eq_true_iff]
  exact Iff.rfl

theorem isDigit_iff {c : Char} : c.isDigit = true ↔ 48 ≤ c.toNat ∧ c.toNat ≤ 57 := by
  unfold Char.isDigit
  rw [Bool.and_eq_true, decide_eq_true_iff, decide_eq_true_iff]
  exact Iff.rfl

theorem isAlpha_iff {c : Char} : c.isAlpha = true ↔
    (65 ≤ c.toNat ∧ c.toNat ≤ 90) ∨ (97 ≤ c.toNat ∧ c.toNat ≤ 122) := by
  unfold Char.isAlpha
  rw [Bool.or_eq_true, isUpper_iff, isLower_iff]

theorem toLower_toNat (c : Char) : (Char.toLower c).toNat =
    if 65 ≤ c.toNat ∧ c.toNat ≤ 90 then c.toNat + 32 else c.toNat := by
  unfold Char.toLower
  dsimp only
  split
  · next h => rw [char_toNat_ofNat (by omega)]
  · rfl

theorem toLower_eq_self {c : Char} (h : ¬(65 ≤ c.toNat ∧ c.toNat ≤ 90)) :
    Char.toLower c = c :=
  char_eq_iff_toNat.mpr (by rw [toLower_toNat, if_neg h])

theorem toLower_idem (c : Char) : Char.toLower (Char.toLower c) = Char.toLower c := by
  apply toLower_eq_self
  rw [toLower_toNat]
  split
  · omega
  · next h => exact h

theorem toLowerStr_idem (l : PyStr) : toLowerStr (toLowerStr l) = toLowerStr l := by
  unfold toLowerStr
  rw [List.map_map]
  exact List.map_congr_left (fun c _ => toLower_idem c)

theorem toLowerStr_eq_nil_iff {l : PyStr} : toLowerStr l = [] ↔ l = [] := by
  unfold toLowerStr
  simp

theorem hostChar_iff {c : Char} : hostChar c = true ↔
    (65 ≤ c.toNat ∧ c.toNat ≤ 90) ∨ (97 ≤ c.toNat ∧ c.toNat ≤ 122) ∨
    (48 ≤ c.toNat ∧ c.toNat ≤ 57) ∨ c.toNat = 46 ∨ c.toNat = 45 := by
  unfold hostChar
  simp only [Bool.or_eq_true, isAlpha_iff, isDigit_iff, decide_eq_true_iff,
    char_eq_iff_toNat]
  rw [show ('.').toNat = 46 from rfl, show ('-').toNat = 45 from rfl]
  omega

theorem pathChar_iff {c : Char} : pathChar c = true ↔
    (65 ≤ c.toNat ∧ c.toNat ≤ 90) ∨ (97 ≤ c.toNat ∧ c.toNat ≤ 122) ∨
    (48 ≤ c.toNat ∧ c.toNat ≤ 57) ∨ c.toNat = 47 ∨ c.toNat = 46 ∨ c.toNat = 45 ∨
    c.toNat = 95 ∨ c.toNat = 126 := by
  unfold pathChar
  simp only [Bool.or_eq_true, isAlpha_iff, isDigit_iff, decide_eq_true_iff,
    char_eq_iff_toNat]
  rw [show ('/').toNat = 47 from rfl, show ('.').toNat = 46 from rfl,
    show ('-').toNat = 45 from rfl, show ('_').toNat = 95 from rfl,
    show ('~').toNat = 126 from rfl]
  omega

theorem queryChar_iff {c : Char} : queryChar c = true ↔
    33 ≤ c.toNat ∧ c.toNat ≤ 126 ∧ c.toNat ≠ 35 := by
  unfold queryChar
  simp only [Bool.and_eq_true, Bool.not_eq_true', decide_eq_true_iff,
    decide_eq_false_iff_not, char_eq_iff_toNat]
  rw [show ('#').toNat = 35 from rfl]
  omega

theorem isAlpha_toLower {c : Char} (h : c.isAlpha = true) :
    (Char.toLower c).isAlpha = true := by
  rw [isAlpha_iff] at h ⊢
  rw [toLower_toNat]
  split <;> omega

theorem hostChar_toLower {c : Char} (h : hostChar c = true) :
    hostChar (Char.toLower c) = true := by
  rw [hostChar_iff] at h ⊢
  rw [toLower_toNat]
  split <;> omega

theorem toLower_of_digit {c : Char} (h : c.isDigit = true) : Char.toLower c = c := by
  rw [isDigit_iff] at h
  exact toLower_eq_self (by omega)

/-! ## Generic list helpers -/

theorem takeWhile_append_all {p : Char → Bool} {xs : PyStr} (ys : PyStr)
    (h : ∀ x ∈ xs, p x = true) : (xs ++ ys).takeWhile p = xs ++ ys.takeWhile p := by
  induction xs with
  | nil => simp
  | cons a r ih =>
    rw [List.cons_append, List.takeWhile_cons, if_pos (h a (by simp)),
      ih (fun x hx => h x (by simp [hx])), List.cons_append]

theorem dropWhile_append_all {p : Char → Bool} {xs : PyStr} (ys : PyStr)
    (h : ∀ x ∈ xs, p x = true) : (xs ++ ys).dropWhile p = ys.dropWhile p := by
  induction xs with
  | nil => simp
  | cons a r ih =>
    rw [List.cons_append, List.dropWhile_cons, if_pos (h a (by simp)),
      ih (fun x hx => h x (by simp [hx]))]

theorem dropWhile_nil_all {p : Char → Bool} {xs : PyStr}
    (h : ∀ x ∈ xs, p x = true) : xs.dropWhile p = [] := by
  have hx := @dropWhile_append_all p xs [] h
  simpa using hx

theorem takeWhile_all {p : Char → Bool} {xs : PyStr}
    (h : ∀ x ∈ xs, p x = true) : xs.takeWhile p = xs := by
  have hx := @takeWhile_append_all p xs [] h
  simpa using hx

theorem firstOk_of_all {p : Char → Bool} {l : PyStr}
    (h : ∀ c ∈ l, p c = false) : firstOk p l = true := by
  cases l with
  | nil => rfl
  | cons c r => simp [firstOk, h c (by simp)]

theorem pyStrip_eq_self_of_all {l : PyStr} (h : ∀ c ∈ l, isPySpace c = false) :
    pyStrip l = l :=
  pyStrip_eq_self (firstOk_of_all h)
    (firstOk_of_all (fun c hc => h c (List.mem_reverse.mp hc)))

theorem take_append_self (l1 l2 : PyStr) : (l1 ++ l2).take l1.length = l1 := by
  induction l1 with
  | nil => simp
  | cons a r ih => simp [ih]

theorem splitAtFirst_not_mem {sep : Char} {u : PyStr} (h : sep ∉ u) :
    splitAtFirst sep u = (u, none) := by
  unfold splitAtFirst
  rw [dropWhile_nil_all (fun x hx => by
    simp only [decide_eq_true_iff]
    exact fun he => h (he ▸ hx))]

theorem splitAtFirst_mid {sep : Char} {u : PyStr} (t : PyStr) (h : sep ∉ u) :
    splitAtFirst sep (u ++ sep :: t) = (u, some t) := by
  have hall : ∀ x ∈ u, (decide ¬(x = sep)) = true := fun x hx => by
    simp only [decide_not, Bool.not_eq_true', decide_eq_false_iff_not]
    exact fun he => h (he ▸ hx)
  unfold splitAtFirst
  rw [show ((· ≠ sep) : Char → Bool) = fun x => decide ¬(x = sep) from rfl]
  rw [dropWhile_append_all _ hall, takeWhile_append_all _ hall]
  simp [List.dropWhile, List.takeWhile]

/-! ## Visibility and disequality facts for the URL character classes -/

theorem visible_not_pySpace {c : Char} (h1 : 33 ≤ c.toNat) (h2 : c.toNat ≤ 126) :
    isPySpace c = false := by
  rw [Bool.eq_false_iff]
  intro hh
  simp only [isPySpace, Bool.or_eq_true, Bool.and_eq_true, decide_eq_true_iff] at hh
  omega

theorem isAlpha_visible {c : Char} (h : c.isAlpha = true) :
    33 ≤ c.toNat ∧ c.toNat ≤ 126 := by
  rw [isAlpha_iff] at h
  omega

theorem isDigit_visible {c : Char} (h : c.isDigit = true) :
    33 ≤ c.toNat ∧ c.toNat ≤ 126 := by
  rw [isDigit_iff] at h
  omega

theorem hostChar_visible {c : Char} (h : hostChar c = true) :
    33 ≤ c.toNat ∧ c.toNat ≤ 126 := by
  rw [hostChar_iff] at h
  omega

theorem pathChar_visible {c : Char} (h : pathChar c = true) :
    33 ≤ c.toNat ∧ c.toNat ≤ 126 := by
  rw [pathChar_iff] at h
  omega

theorem queryChar_visible {c : Char} (h : queryChar c = true) :
    33 ≤ c.toNat ∧ c.toNat ≤ 126 := by
  rw [queryChar_iff] at h
  omega

theorem isAlpha_ne_colon {c : Char} (h : c.isAlpha = true) : c ≠ ':' := by
  intro he
  rw [he] at h
  exact absurd h (by decide)

theorem hostChar_ne_colon {c : Char} (h : hostChar c = true) : c ≠ ':' := by
  intro he
  rw [he] at h
  exact absurd h (by decide)

theorem hostChar_not_netlocEnd {c : Char} (h : hostChar c = true) :
    isNetlocEnd c = false := by
  have h1 : c ≠ '/' := fun he => by rw [he] at h; exact absurd h (by decide)
  have h2 : c ≠ '?' := fun he => by rw [he] at h; exact absurd h (by decide)
  have h3 : c ≠ '#' := fun he => by rw [he] at h; exact absurd h (by decide)
  simp [isNetlocEnd, h1, h2, h3]

theorem isDigit_not_netlocEnd {c : Char} (h : c.isDigit = true) :
    isNetlocEnd c = false := by
  have h1 : c ≠ '/' := fun he => by rw [he] at h; exact absurd h (by decide)
  have h2 : c ≠ '?' := fun he => by rw [he] at h; exact absurd h (by decide)
  have h3 : c ≠ '#' := fun he => by rw [he] at h; exact absurd h (by decide)
  simp [isNetlocEnd, h1, h2, h3]

theorem pathChar_ne_qm {c : Char} (h : pathChar c = true) : c ≠ '?' := by
  intro he
  rw [he] at h
  exact absurd h (by decide)

theorem pathChar_ne_hash {c : Char} (h : pathChar c = true) : c ≠ '#' := by
  intro he
  rw [he] at h
  exact absurd h (by decide)

theorem pathChar_ne_semi {c : Char} (h : pathChar c = true) : c ≠ ';' := by
  intro he
  rw [he] at h
  exact absurd h (by decide)

theorem queryChar_ne_hash {c : Char} (h : queryChar c = true) : c ≠ '#' := by
  intro he
  rw [he] at h
  exact absurd h (by decide)

/-! ## `urlsplit` on well-formed class URLs -/

theorem splitScheme_class {sch : PyStr} (rest : PyStr) (hs : sch ≠ [])
    (hsa : ∀ c ∈ sch, c.isAlpha = true) :
    splitScheme (sch ++ ':' :: rest) = (toLowerStr sch, rest) := by
  have hne : ∀ c ∈ sch, ((c ≠ ':') : Bool) = true := fun c hc => by
    simp only [ne_eq, decide_not, Bool.not_eq_true', decide_eq_false_iff_not]
    intro he
    exact isAlpha_ne_colon (hsa c hc) he
  have hdrop : (sch ++ ':' :: rest).dropWhile (· ≠ ':') = ':' :: rest := by
    rw [dropWhile_append_all _ hne]
    simp [List.dropWhile]
  have htake : (sch ++ ':' :: rest).takeWhile (· ≠ ':') = sch := by
    rw [takeWhile_append_all _ hne]
    simp [List.takeWhile]
  obtain ⟨a, r, rfl⟩ : ∃ a r, sch = a :: r := by
    cases sch with
    | nil => exact absurd rfl hs
    | cons a r => exact ⟨a, r, rfl⟩
  have hcond : (a.isAlpha && (a :: r).all schemeChar) = true := by
    rw [Bool.and_eq_true]
    refine ⟨hsa a (by simp), ?_⟩
    rw [List.all_eq_true]
    intro c hc
    simp [schemeChar, hsa c hc]
  unfold splitScheme
  rw [hdrop, htake]
  dsimp only
  rw [if_pos hcond]

theorem splitNetloc_class {netloc rest2 : PyStr}
    (hn : ∀ c ∈ netloc, isNetlocEnd c = false)
    (hr : rest2 = [] ∨ ∃ c t, rest2 = c :: t ∧ isNetlocEnd c = true) :
    splitNetloc ('/' :: '/' :: (netloc ++ rest2)) = (netloc, rest2) := by
  have hall : ∀ c ∈ netloc, (!(isNetlocEnd c)) = true := fun c hc => by
    rw [hn c hc]
    rfl
  have hrest : rest2.takeWhile (fun c => !isNetlocEnd c) = [] ∧
      rest2.dropWhile (fun c => !isNetlocEnd c) = rest2 := by
    rcases hr with rfl | ⟨c, t, rfl, hc⟩
    · simp
    · constructor
      · rw [List.takeWhile_cons, if_neg (by simp [hc])]
      · rw [List.dropWhile_cons, if_neg (by simp [hc])]
  unfold splitNetloc
  show (List.takeWhile (fun c => !isNetlocEnd c) (netloc ++ rest2),
      List.dropWhile (fun c => !isNetlocEnd c) (netloc ++ rest2)) = (netloc, rest2)
  rw [takeWhile_append_all _ hall, dropWhile_append_all _ hall, hrest.1, hrest.2,
    List.append_nil]

theorem urlsplit_class_core {sch host port path qp : PyStr}
    (hs : sch ≠ []) (hsa : ∀ c ∈ sch, c.isAlpha = true)
    (hhc : ∀ c ∈ host, hostChar c = true)
    (hp : port = [] ∨ ∃ ds, port = ':' :: ds ∧ ∀ c ∈ ds, c.isDigit = true)
    (hpa : path = [] ∨ ∃ p2, path = '/' :: p2)
    (hpc : ∀ c ∈ path, pathChar c = true)
    (hqp : qp = [] ∨ ∃ q', qp = '?' :: q' ∧ ∀ c ∈ q', queryChar c = true) :
    urlsplitPy (sch ++ ':' :: '/' :: '/' :: (host ++ (port ++ (path ++ qp)))) =
      ⟨toLowerStr sch, host ++ port, path, [], qp.tail, []⟩ := by
  -- sanitization is a no-op: every character is printable ASCII
  have hvis : ∀ c ∈ sch ++ ':' :: '/' :: '/' :: (host ++ (port ++ (path ++ qp))),
      33 ≤ c.toNat ∧ c.toNat ≤ 126 := by
    intro c hc
    simp only [List.mem_append, List.mem_cons] at hc
    rcases hc with hc | rfl | rfl | rfl | hc | hc | hc | hc
    · exact isAlpha_visible (hsa c hc)
    · exact ⟨by decide, by decide⟩
    · exact ⟨by decide, by decide⟩
    · exact ⟨by decide, by decide⟩
    · exact hostChar_visible (hhc c hc)
    · rcases hp with rfl | ⟨ds, rfl, hds⟩
      · simp at hc
      · rcases List.mem_cons.1 hc with rfl | hc
        · exact ⟨by decide, by decide⟩
        · exact isDigit_visible (hds c hc)
    · exact pathChar_visible (hpc c hc)
    · rcases hqp with rfl | ⟨q', rfl, hq'⟩
      · simp at hc
      · rcases List.mem_cons.1 hc with rfl | hc
        · exact ⟨by decide, by decide⟩
        · exact queryChar_visible (hq' c hc)
  have hsan : sanitizeUrl (sch ++ ':' :: '/' :: '/' :: (host ++ (port ++ (path ++ qp)))) =
      sch ++ ':' :: '/' :: '/' :: (host ++ (port ++ (path ++ qp))) := by
    unfold sanitizeUrl
    rw [List.filter_eq_self]
    intro c hc
    have hv := hvis c hc
    simp only [Bool.not_eq_true', Bool.or_eq_false_iff, decide_eq_false_iff_not,
      char_eq_iff_toNat]
    rw [show ('\t').toNat = 9 from rfl, show ('\r').toNat = 13 from rfl,
      show ('\n').toNat = 10 from rfl]
    omega
  -- the scheme split
  have hscheme : splitScheme (sch ++ ':' :: '/' :: '/' :: (host ++ (port ++ (path ++ qp)))) =
      (toLowerStr sch, '/' :: '/' :: (host ++ (port ++ (path ++ qp)))) :=
    splitScheme_class _ hs hsa
  -- the netloc split
  have hnet : splitNetloc ('/' :: '/' :: (host ++ (port ++ (path ++ qp)))) =
      (host ++ port, path ++ qp) := by
    rw [show host ++ (port ++ (path ++ qp)) = (host ++ port) ++ (path ++ qp) from by
      simp]
    apply splitNetloc_class
    · intro c hc
      rcases List.mem_append.1 hc with hc | hc
      · exact hostChar_not_netlocEnd (hhc c hc)
      · rcases hp with rfl | ⟨ds, rfl, hds⟩
        · simp at hc
        · rcases List.mem_cons.1 hc with rfl | hc
          · decide
          · exact isDigit_not_netlocEnd (hds c hc)
    · rcases hpa with rfl | ⟨p2, rfl⟩
      · rcases hqp with rfl | ⟨q', rfl, hq'⟩
        · left
          simp
        · right
          exact ⟨'?', q', by simp, by decide⟩
      · right
        exact ⟨'/', p2 ++ qp, by simp, by decide⟩
  -- no fragment marker anywhere after the netloc
  have hhash : splitAtFirst '#' (path ++ qp) = (path ++ qp, none) := by
    apply splitAtFirst_not_mem
    intro hc
    rcases List.mem_append.1 hc with hc | hc
    · exact pathChar_ne_hash (hpc _ hc) rfl
    · rcases hqp with rfl | ⟨q', rfl, hq'⟩
      · simp at hc
      · rcases List.mem_cons.1 hc with hc | hc
        · exact absurd hc (by decide)
        · exact queryChar_ne_hash (hq' _ hc) rfl
  -- the query split
  have hqm : splitAtFirst '?' (path ++ qp) = (path, qp.tail?) := by
    have hnq : '?' ∉ path := fun hc => pathChar_ne_qm (hpc _ hc) rfl
    rcases hqp with rfl | ⟨q', rfl, hq'⟩
    · rw [List.append_nil]
      exact splitAtFirst_not_mem hnq
    · exact splitAtFirst_mid q' hnq
  simp only [urlsplitPy, hsan, hscheme, hnet, hhash, hqm]
  rcases hqp with rfl | ⟨q', rfl, hq'⟩ <;> simp

theorem urlparse_class {sch host port path q : PyStr}
    (hs : sch ≠ []) (hsa : ∀ c ∈ sch, c.isAlpha = true)
    (hhc : ∀ c ∈ host, hostChar c = true)
    (hp : port = [] ∨ ∃ ds, port = ':' :: ds ∧ ∀ c ∈ ds, c.isDigit = true)
    (hpa : path = [] ∨ ∃ p2, path = '/' :: p2)
    (hpc : ∀ c ∈ path, pathChar c = true)
    (hqc : ∀ c ∈ q, queryChar c = true) :
    urlparsePy (mkClassUrl sch host port path q) =
      ⟨toLowerStr sch, host ++ port, path, [], q, []⟩ := by
  have hurl : mkClassUrl sch host port path q =
      sch ++ ':' :: '/' :: '/' ::
        (host ++ (port ++ (path ++ (if q = [] then [] else '?' :: q)))) := by
    simp [mkClassUrl]
  have hqp : (if q = [] then [] else '?' :: q) = [] ∨
      ∃ q', (if q = [] then [] else '?' :: q) = '?' :: q' ∧
        ∀ c ∈ q', queryChar c = true := by
    by_cases hq0 : q = []
    · left
      rw [if_pos hq0]
    · right
      exact ⟨q, if_neg hq0, hqc⟩
  have htail : (if q = [] then [] else ('?' :: q : PyStr)).tail = q := by
    by_cases hq0 : q = []
    · rw [if_pos hq0, hq0]
      rfl
    · rw [if_neg hq0]
      rfl
  have hsplit := urlsplit_class_core hs hsa hhc hp hpa hpc hqp
  have hsemi : ';' ∉ path := fun hc => pathChar_ne_semi (hpc _ hc) rfl
  simp only [urlparsePy, hurl, hsplit, htail]
  split
  · next hmem => exact absurd hmem hsemi
  · rfl

/-! ## Default-port suffix detection -/

theorem isPrefixOf_exists : ∀ {l1 l2 : PyStr}, l1.isPrefixOf l2 = true →
    ∃ t, l2 = l1 ++ t := by
  intro l1
  induction l1 with
  | nil => exact fun {l2} _ => ⟨l2, rfl⟩
  | cons a r ih =>
    intro l2 h
    cases l2 with
    | nil => exact absurd h (by simp [List.isPrefixOf])
    | cons b l2' =>
      rw [List.isPrefixOf, Bool.and_eq_true, beq_iff_eq] at h
      obtain ⟨t, rfl⟩ := ih h.2
      exact ⟨t, by rw [h.1]; rfl⟩

theorem endsWith_mem {suf l : PyStr} (h : endsWithStr suf l = true) {c : Char}
    (hc : c ∈ suf) : c ∈ l := by
  unfold endsWithStr at h
  obtain ⟨t, ht⟩ := isPrefixOf_exists h
  have hmem : c ∈ l.reverse := by
    rw [ht]
    exact List.mem_append_left _ (List.mem_reverse.mpr hc)
  exact List.mem_reverse.mp hmem

theorem isPrefixOf_digits_colon {pat : PyStr} (hpatd : ∀ c ∈ pat, c.isDigit = true) :
    ∀ {rs : PyStr} (tail : PyStr), (∀ c ∈ rs, c.isDigit = true) →
      ((pat ++ [':']).isPrefixOf (rs ++ ':' :: tail) = true ↔ rs = pat) := by
  induction pat with
  | nil =>
    intro rs tail hds
    cases rs with
    | nil => simp [List.isPrefixOf]
    | cons r rs' =>
      have hr : ((':' : Char) == r) = false := by
        rw [beq_eq_false_iff_ne]
        intro he
        have := hds r (by simp)
        rw [← he] at this
        exact absurd this (by decide)
      simp [List.isPrefixOf, hr]
  | cons p pat' ih =>
    intro rs tail hds
    cases rs with
    | nil =>
      have hp : ((p : Char) == ':') = false := by
        rw [beq_eq_false_iff_ne]
        intro he
        have := hpatd p (by simp)
        rw [he] at this
        exact absurd this (by decide)
      simp [List.isPrefixOf, hp]
    | cons r rs' =>
      have hih : (pat' ++ [':']).isPrefixOf (rs' ++ ':' :: tail) = true ↔
          rs' = pat' :=
        ih (fun c hc => hpatd c (by simp [hc])) tail
          (fun c hc => hds c (by simp [hc]))
      simp only [List.cons_append, List.isPrefixOf, Bool.and_eq_true, beq_iff_eq,
        List.append_eq, hih]
      constructor
      · rintro ⟨he1, he2⟩
        rw [← he1, he2]
      · intro he
        rw [List.cons_eq_cons] at he
        exact ⟨he.1.symm, he.2⟩

theorem endsWith_port_iff {lhost ds pat : PyStr}
    (hpatd : ∀ c ∈ pat, c.isDigit = true) (hds : ∀ c ∈ ds, c.isDigit = true) :
    endsWithStr (':' :: pat) (lhost ++ ':' :: ds) = true ↔ ds = pat := by
  unfold endsWithStr
  rw [List.reverse_append, List.reverse_cons, List.reverse_cons, List.append_assoc]
  rw [show ([':'] : PyStr) ++ lhost.reverse = ':' :: lhost.reverse from rfl]
  rw [isPrefixOf_digits_colon (fun c hc => hpatd c (List.mem_reverse.mp hc))
    lhost.reverse (fun c hc => hds c (List.mem_reverse.mp hc))]
  constructor
  · intro h
    rw [← List.reverse_reverse ds, h, List.reverse_reverse]
  · intro h
    rw [h]

theorem not_endsWith_port {pat lhost : PyStr} (h : ':' ∉ lhost) :
    endsWithStr (':' :: pat) lhost = false := by
  rw [Bool.eq_false_iff]
  intro hh
  exact h (endsWith_mem hh (by simp))

/-! ## Slash-run collapsing: fixed points -/

theorem slashGood_tail {c : Char} {rest : PyStr}
    (h : slashGoodB (c :: rest) = true) : slashGoodB rest = true := by
  cases rest with
  | nil => rfl
  | cons d r =>
    rw [show slashGoodB (c :: d :: r) =
        ((!(c = '/' && d = '/')) && slashGoodB (d :: r)) from rfl,
      Bool.and_eq_true] at h
    exact h.2

theorem slashGood_cons {c : Char} {rest : PyStr}
    (h1 : (c = '/' : Bool) = false ∨ firstOk (· = '/') rest = true)
    (h2 : slashGoodB rest = true) : slashGoodB (c :: rest) = true := by
  cases rest with
  | nil => rfl
  | cons d r =>
    rw [show slashGoodB (c :: d :: r) =
        ((!(c = '/' && d = '/')) && slashGoodB (d :: r)) from rfl,
      Bool.and_eq_true]
    refine ⟨?_, h2⟩
    rcases h1 with h1 | h1
    · simp [h1]
    · simp only [firstOk, Bool.not_eq_true'] at h1
      simp [h1]

theorem csAux_good (l : PyStr) :
    slashGoodB (collapseRunsAux (· = '/') '/' false l) = true ∧
    slashGoodB (collapseRunsAux (· = '/') '/' true l) = true ∧
    firstOk (· = '/') (collapseRunsAux (· = '/') '/' true l) = true := by
  induction l with
  | nil => exact ⟨rfl, rfl, rfl⟩
  | cons c rest ih =>
    obtain ⟨ihF, ihT, ihFO⟩ := ih
    by_cases hc : (c = '/' : Bool) = true
    · have hcc : c = '/' := by simpa using hc
      rw [show collapseRunsAux (· = '/') '/' false (c :: rest) =
          '/' :: collapseRunsAux (· = '/') '/' true rest from by
        simp [collapseRunsAux, hc],
        show collapseRunsAux (· = '/') '/' true (c :: rest) =
          collapseRunsAux (· = '/') '/' true rest from by
        simp [collapseRunsAux, hc]]
      exact ⟨slashGood_cons (Or.inr ihFO) ihT, ihT, ihFO⟩
    · have hcf : (c = '/' : Bool) = false := by simpa using hc
      rw [show collapseRunsAux (· = '/') '/' false (c :: rest) =
          c :: collapseRunsAux (· = '/') '/' false rest from by
        simp [collapseRunsAux, hcf],
        show collapseRunsAux (· = '/') '/' true (c :: rest) =
          c :: collapseRunsAux (· = '/') '/' false rest from by
        simp [collapseRunsAux, hcf]]
      refine ⟨slashGood_cons (Or.inl hcf) ihF, slashGood_cons (Or.inl hcf) ihF, ?_⟩
      simp [firstOk, hcf]

theorem collapseSlashes_good (l : PyStr) : slashGoodB (collapseSlashes l) = true :=
  (csAux_good l).1

theorem slashGood_adj {c d : Char} {rest : PyStr}
    (h : slashGoodB (c :: d :: rest) = true) (hc : c = '/') : (d = '/' : Bool) = false := by
  rw [show slashGoodB (c :: d :: rest) =
      ((!(c = '/' && d = '/')) && slashGoodB (d :: rest)) from rfl,
    Bool.and_eq_true] at h
  have := h.1
  subst hc
  simpa using this

theorem csAux_fix (l : PyStr) (h : slashGoodB l = true) :
    collapseRunsAux (· = '/') '/' false l = l ∧
    (firstOk (· = '/') l = true → collapseRunsAux (· = '/') '/' true l = l) := by
  induction l with
  | nil => exact ⟨rfl, fun _ => rfl⟩
  | cons c rest ih =>
    obtain ⟨ihF, ihT⟩ := ih (slashGood_tail h)
    by_cases hc : (c = '/' : Bool) = true
    · have hcc : c = '/' := by simpa using hc
      have hrest : firstOk (· = '/') rest = true := by
        cases rest with
        | nil => rfl
        | cons d r => simp [firstOk, slashGood_adj h hcc]
      constructor
      · rw [show collapseRunsAux (· = '/') '/' false (c :: rest) =
            '/' :: collapseRunsAux (· = '/') '/' true rest from by
          simp [collapseRunsAux, hc], ihT hrest, hcc]
      · intro hfo
        simp only [firstOk, Bool.not_eq_true'] at hfo
        rw [hfo] at hc
        cases hc
    · have hcf : (c = '/' : Bool) = false := by simpa using hc
      have hstep : ∀ b, collapseRunsAux (· = '/') '/' b (c :: rest) =
          c :: collapseRunsAux (· = '/') '/' false rest := by
        intro b
        cases b <;> simp [collapseRunsAux, hcf]
      exact ⟨by rw [hstep, ihF], fun _ => by rw [hstep, ihF]⟩

theorem collapseSlashes_eq_self {l : PyStr} (h : slashGoodB l = true) :
    collapseSlashes l = l :=
  (csAux_fix l h).1

theorem slashGood_append_left : ∀ {l₁ l₂ : PyStr}, slashGoodB (l₁ ++ l₂) = true →
    slashGoodB l₁ = true := by
  intro l₁
  induction l₁ with
  | nil => intro l₂ _; rfl
  | cons c r ih =>
    intro l₂ h
    cases r with
    | nil => rfl
    | cons d r' =>
      rw [show slashGoodB (c :: d :: r') =
          ((!(c = '/' && d = '/')) && slashGoodB (d :: r')) from rfl, Bool.and_eq_true]
      rw [show (c :: d :: r' ++ l₂ : PyStr) = c :: d :: (r' ++ l₂) from rfl,
        show slashGoodB (c :: d :: (r' ++ l₂)) =
          ((!(c = '/' && d = '/')) && slashGoodB (d :: (r' ++ l₂))) from rfl,
        Bool.and_eq_true] at h
      exact ⟨h.1, ih h.2⟩

theorem slashGood_take {l : PyStr} (n : Nat) (h : slashGoodB l = true) :
    slashGoodB (l.take n) = true := by
  have := List.take_append_drop n l
  rw [← this] at h
  exact slashGood_append_left h

theorem slashGood_no_trailing_double : ∀ {t : PyStr},
    slashGoodB (t ++ ('/' :: '/' :: [])) = true → False := by
  intro t
  induction t with
  | nil => intro h; exact absurd h (by decide)
  | cons c r ih => intro h; exact ih (slashGood_tail h)

/-! ## Trailing-slash stripping -/

theorem endsWith_slash_iff {l : PyStr} :
    endsWithStr (['/']) l = true ↔ ∃ t, l = t ++ ['/'] := by
  unfold endsWithStr
  constructor
  · intro h
    cases hl : l.reverse with
    | nil =>
      rw [hl] at h
      exact absurd h (by decide)
    | cons c cs =>
      rw [hl] at h
      have hc : c = '/' := by
        simp [List.isPrefixOf] at h
        exact h.symm
      refine ⟨cs.reverse, ?_⟩
      have hrev : l = (c :: cs).reverse := by
        rw [← hl, List.reverse_reverse]
      rw [hrev, List.reverse_cons, hc]
  · rintro ⟨t, rfl⟩
    rw [List.reverse_append]
    simp [List.isPrefixOf]

theorem collapseSlashes_cons (c : Char) (l : PyStr) :
    ∃ t, collapseSlashes (c :: l) = c :: t := by
  by_cases hc : (c = '/' : Bool) = true
  · have hcc : c = '/' := by simpa using hc
    refine ⟨collapseRunsAux (· = '/') '/' true l, ?_⟩
    show collapseRunsAux (· = '/') '/' false (c :: l) = _
    rw [show collapseRunsAux (· = '/') '/' false (c :: l) =
        '/' :: collapseRunsAux (· = '/') '/' true l from by
      simp [collapseRunsAux, hc], hcc]
  · have hcf : (c = '/' : Bool) = false := by simpa using hc
    refine ⟨collapseRunsAux (· = '/') '/' false l, ?_⟩
    show collapseRunsAux (· = '/') '/' false (c :: l) = _
    simp [collapseRunsAux, hcf]

theorem mem_stripTrailingSlash {c : Char} {l : PyStr}
    (h : c ∈ stripTrailingSlash l) : c ∈ l := by
  unfold stripTrailingSlash at h
  split at h
  · exact List.mem_of_mem_take h
  · exact h

theorem slashGood_stripTrailingSlash {l : PyStr} (h : slashGoodB l = true) :
    slashGoodB (stripTrailingSlash l) = true := by
  unfold stripTrailingSlash
  split
  · exact slashGood_take _ h
  · exact h

theorem stripTrailingSlash_head {t : PyStr} :
    ∃ t2, stripTrailingSlash ('/' :: t) = '/' :: t2 := by
  unfold stripTrailingSlash
  split
  · next hcond =>
    cases t with
    | nil => exact absurd rfl hcond.1
    | cons a t' =>
      refine ⟨(a :: t').take t'.length, ?_⟩
      rw [show ('/' :: a :: t' : PyStr).length - 1 = t'.length + 1 from by simp,
        List.take_succ_cons]
  · exact ⟨t, rfl⟩

theorem stripTrailingSlash_noSlashEnd {l : PyStr} (hg : slashGoodB l = true) :
    stripTrailingSlash (stripTrailingSlash l) = stripTrailingSlash l := by
  unfold stripTrailingSlash
  split
  · next hcond =>
    obtain ⟨t, rfl⟩ := endsWith_slash_iff.mp hcond.2
    rw [show (t ++ ['/'] : PyStr).length - 1 = t.length from by simp,
      take_append_self]
    rw [if_neg]
    intro hc
    obtain ⟨t2, rfl⟩ := endsWith_slash_iff.mp hc.2
    rw [List.append_assoc] at hg
    exact slashGood_no_trailing_double hg
  · rfl

/-! ## `_normalize_url` on well-formed class URLs -/

theorem mkClassUrl_mem {sch host port path q : PyStr} {c : Char}
    (hc : c ∈ mkClassUrl sch host port path q) :
    c ∈ sch ∨ c = ':' ∨ c = '/' ∨ c ∈ host ∨ c ∈ port ∨ c ∈ path ∨ c = '?' ∨ c ∈ q := by
  unfold mkClassUrl at hc
  rw [show (("://").toList : PyStr) = ':' :: '/' :: '/' :: [] from rfl] at hc
  simp only [List.mem_append, List.mem_cons, List.not_mem_nil, or_false] at hc
  rcases hc with ((((hc | rfl | rfl | rfl) | hc) | hc) | hc) | hc
  · exact Or.inl hc
  · exact Or.inr (Or.inl rfl)
  · exact Or.inr (Or.inr (Or.inl rfl))
  · exact Or.inr (Or.inr (Or.inl rfl))
  · exact Or.inr (Or.inr (Or.inr (Or.inl hc)))
  · exact Or.inr (Or.inr (Or.inr (Or.inr (Or.inl hc))))
  · exact Or.inr (Or.inr (Or.inr (Or.inr (Or.inr (Or.inl hc)))))
  · by_cases hq0 : q = []
    · rw [if_pos hq0] at hc
      simp at hc
    · rw [if_neg hq0] at hc
      rcases List.mem_cons.1 hc with rfl | hc
      · exact Or.inr (Or.inr (Or.inr (Or.inr (Or.inr (Or.inr (Or.inl rfl))))))
      · exact Or.inr (Or.inr (Or.inr (Or.inr (Or.inr (Or.inr (Or.inr hc))))))

theorem mkClassUrl_visible {sch host port path q : PyStr}
    (hsa : ∀ c ∈ sch, c.isAlpha = true)
    (hhc : ∀ c ∈ host, hostChar c = true)
    (hp : port = [] ∨ ∃ ds, port = ':' :: ds ∧ ∀ c ∈ ds, c.isDigit = true)
    (hpc : ∀ c ∈ path, pathChar c = true)
    (hqc : ∀ c ∈ q, queryChar c = true) :
    ∀ c ∈ mkClassUrl sch host port path q, 33 ≤ c.toNat ∧ c.toNat ≤ 126 := by
  intro c hc
  rcases mkClassUrl_mem hc with hc | rfl | rfl | hc | hc | hc | rfl | hc
  · exact isAlpha_visible (hsa c hc)
  · exact ⟨by decide, by decide⟩
  · exact ⟨by decide, by decide⟩
  · exact hostChar_visible (hhc c hc)
  · rcases hp with rfl | ⟨ds, rfl, hds⟩
    · simp at hc
    · rcases List.mem_cons.1 hc with rfl | hc
      · exact ⟨by decide, by decide⟩
      · exact isDigit_visible (hds c hc)
  · exact pathChar_visible (hpc c hc)
  · exact ⟨by decide, by decide⟩
  · exact queryChar_visible (hqc c hc)

theorem mkClassUrl_no_hash {sch host port path q : PyStr}
    (hsa : ∀ c ∈ sch, c.isAlpha = true)
    (hhc : ∀ c ∈ host, hostChar c = true)
    (hp : port = [] ∨ ∃ ds, port = ':' :: ds ∧ ∀ c ∈ ds, c.isDigit = true)
    (hpc : ∀ c ∈ path, pathChar c = true)
    (hqc : ∀ c ∈ q, queryChar c = true) :
    '#' ∉ mkClassUrl sch host port path q := by
  intro hc
  rcases mkClassUrl_mem hc with hc | hc | hc | hc | hc | hc | hc | hc
  · exact absurd (hsa _ hc) (by decide)
  · exact absurd hc (by decide)
  · exact absurd hc (by decide)
  · exact absurd (hhc _ hc) (by decide)
  · rcases hp with rfl | ⟨ds, rfl, hds⟩
    · simp at hc
    · rcases List.mem_cons.1 hc with hx | hc
      · exact absurd hx (by decide)
      · exact absurd (hds _ hc) (by decide)
  · exact absurd (hpc _ hc) (by decide)
  · exact absurd hc (by decide)
  · exact absurd (hqc _ hc) (by decide)

theorem portAfterStrip_class {s' port : PyStr}
    (hp : port = [] ∨ ∃ ds, port = ':' :: ds ∧ ∀ c ∈ ds, c.isDigit = true) :
    portAfterStrip s' port = [] ∨
      ∃ ds, portAfterStrip s' port = ':' :: ds ∧ ∀ c ∈ ds, c.isDigit = true := by
  rcases hp with rfl | ⟨ds, rfl, hds⟩
  · exact Or.inl rfl
  · rw [show portAfterStrip s' (':' :: ds) =
        if (ds = ('8' :: '0' :: []) ∧ s' = ("http").toList) ∨
            (ds = ('4' :: '4' :: '3' :: []) ∧ s' = ("https").toList) then []
        else ':' :: ds from rfl]
    split
    · exact Or.inl rfl
    · exact Or.inr ⟨ds, rfl, hds⟩

theorem portAfterStrip_idem {s' port : PyStr}
    (hp : port = [] ∨ ∃ ds, port = ':' :: ds ∧ ∀ c ∈ ds, c.isDigit = true) :
    portAfterStrip s' (portAfterStrip s' port) = portAfterStrip s' port := by
  rcases hp with rfl | ⟨ds, rfl, hds⟩
  · rfl
  · rw [show portAfterStrip s' (':' :: ds) =
        if (ds = ('8' :: '0' :: []) ∧ s' = ("http").toList) ∨
            (ds = ('4' :: '4' :: '3' :: []) ∧ s' = ("https").toList) then []
        else ':' :: ds from rfl]
    split
    · rfl
    · next hcond =>
      rw [show portAfterStrip s' (':' :: ds) =
          if (ds = ('8' :: '0' :: []) ∧ s' = ("http").toList) ∨
              (ds = ('4' :: '4' :: '3' :: []) ∧ s' = ("https").toList) then []
          else ':' :: ds from rfl, if_neg hcond]

theorem unparse_class {s' netloc2 path2 q : PyStr} (hs' : s' ≠ []) (hn : netloc2 ≠ [])
    (hp2 : ∃ t, path2 = '/' :: t) :
    urlunparsePy ⟨s', netloc2, path2, [], q, []⟩ =
      s' ++ ':' :: '/' :: '/' ::
        (netloc2 ++ (path2 ++ (if q = [] then [] else '?' :: q))) := by
  obtain ⟨t, rfl⟩ := hp2
  by_cases hq0 : q = []
  · subst hq0
    simp [urlunparsePy, urlunsplitPy, hn, hs', List.take_succ_cons]
  · simp [urlunparsePy, urlunsplitPy, hn, hs', hq0, List.take_succ_cons]

theorem normalize_class {sch host port path q : PyStr}
    (hs : sch ≠ []) (hsa : ∀ c ∈ sch, c.isAlpha = true)
    (hh : host ≠ []) (hhc : ∀ c ∈ host, hostChar c = true)
    (hp : port = [] ∨ ∃ ds, port = ':' :: ds ∧ ∀ c ∈ ds, c.isDigit = true)
    (hpa : path = [] ∨ ∃ p2, path = '/' :: p2)
    (hpc : ∀ c ∈ path, pathChar c = true)
    (hqc : ∀ c ∈ q, queryChar c = true) :
    normalizeUrl (mkClassUrl sch host port path q) =
      mkClassUrl (toLowerStr sch) (toLowerStr host)
        (portAfterStrip (toLowerStr sch) port)
        (stripTrailingSlash (collapseSlashes (if path = [] then ['/'] else path))) q := by
  have hvis := mkClassUrl_visible hsa hhc hp hpc hqc
  have hstrip : pyStrip (mkClassUrl sch host port path q) =
      mkClassUrl sch host port path q :=
    pyStrip_eq_self_of_all (fun c hc => visible_not_pySpace (hvis c hc).1 (hvis c hc).2)
  have hdefrag : urldefragPy (mkClassUrl sch host port path q) =
      mkClassUrl sch host port path q := by
    unfold urldefragPy
    rw [if_neg (mkClassUrl_no_hash hsa hhc hp hpc hqc)]
  have hparse := urlparse_class hs hsa hhc hp hpa hpc hqc
  have hcol : ':' ∉ toLowerStr host := by
    intro hc
    obtain ⟨d, hd, he⟩ := List.mem_map.1 hc
    have h2 := hostChar_toLower (hhc d hd)
    rw [he] at h2
    exact absurd h2 (by decide)
  have hs2 : toLowerStr sch ≠ [] := fun hx => hs (toLowerStr_eq_nil_iff.mp hx)
  have hh2 : toLowerStr host ≠ [] := fun hx => hh (toLowerStr_eq_nil_iff.mp hx)
  have hschemeEq : toLowerStr
      (if toLowerStr sch = [] then ("https").toList else toLowerStr sch) =
      toLowerStr sch := by
    rw [if_neg hs2, toLowerStr_idem]
  have hnetlocEq : toLowerStr (host ++ port) = toLowerStr host ++ port := by
    unfold toLowerStr
    rw [List.map_append]
    congr 1
    rcases hp with rfl | ⟨ds, rfl, hds⟩
    · rfl
    · rw [show List.map Char.toLower (':' :: ds) =
          Char.toLower ':' :: List.map Char.toLower ds from rfl,
        show Char.toLower ':' = ':' from by decide]
      congr 1
      rw [show (List.map Char.toLower ds : PyStr) = List.map id ds from
        List.map_congr_left (fun c hc => toLower_of_digit (hds c hc)), List.map_id]
  have hfold : ∀ p1 : PyStr,
      (if p1 ≠ ['/'] ∧ endsWithStr (['/']) p1 then p1.take (p1.length - 1) else p1) =
        stripTrailingSlash p1 := fun _ => rfl
  have hpath2 : ∃ t, stripTrailingSlash
      (collapseSlashes (if path = [] then ['/'] else path)) = '/' :: t := by
    obtain ⟨t0, h0⟩ : ∃ t0, (if path = [] then ['/'] else path) = '/' :: t0 := by
      rcases hpa with rfl | ⟨p2, rfl⟩
      · exact ⟨[], by simp⟩
      · exact ⟨p2, by rw [if_neg (by simp)]⟩
    rw [h0]
    obtain ⟨t1, h1⟩ := collapseSlashes_cons '/' t0
    rw [h1]
    exact stripTrailingSlash_head
  simp only [normalizeUrl, hstrip, hdefrag, hparse, hschemeEq, hnetlocEq, hfold]
  rcases hp with rfl | ⟨ds, rfl, hds⟩
  · -- no port: neither default-port strip can fire
    rw [show ((":80").toList : PyStr) = ':' :: ('8' :: '0' :: []) from rfl,
      show ((":443").toList : PyStr) = ':' :: ('4' :: '4' :: '3' :: []) from rfl]
    simp only [List.append_nil, not_endsWith_port hcol, Bool.false_and,
      Bool.false_eq_true, if_false]
    rw [show portAfterStrip (toLowerStr sch) [] = [] from rfl]
    rw [unparse_class hs2 hh2 hpath2]
    simp [mkClassUrl, show (("://").toList : PyStr) = ':' :: '/' :: '/' :: [] from rfl]
  · -- port present: full default-port case analysis
    rw [show ((":80").toList : PyStr) = ':' :: ('8' :: '0' :: []) from rfl,
      show ((":443").toList : PyStr) = ':' :: ('4' :: '4' :: '3' :: []) from rfl,
      show portAfterStrip (toLowerStr sch) (':' :: ds) =
        if (ds = ('8' :: '0' :: []) ∧ toLowerStr sch = ("http").toList) ∨
            (ds = ('4' :: '4' :: '3' :: []) ∧ toLowerStr sch = ("https").toList) then []
        else ':' :: ds from rfl]
    split
    · next hcond1 =>
      rw [Bool.and_eq_true, endsWith_port_iff (by decide) hds,
        decide_eq_true_iff] at hcond1
      obtain ⟨hds80, hsch80⟩ := hcond1
      subst hds80
      rw [show (toLowerStr host ++ ':' :: ('8' :: '0' :: [])).length - 3 =
          (toLowerStr host).length from by simp, take_append_self]
      split
      · next hcond2 =>
        rw [Bool.and_eq_true, not_endsWith_port hcol] at hcond2
        exact absurd hcond2.1 (by simp)
      · rw [if_pos (Or.inl ⟨rfl, hsch80⟩)]
        rw [unparse_class hs2 hh2 hpath2]
        simp [mkClassUrl, show (("://").toList : PyStr) = ':' :: '/' :: '/' :: [] from rfl]
    · next hcond1 =>
      have h80 : ¬(ds = ('8' :: '0' :: []) ∧ toLowerStr sch = ("http").toList) := by
        intro ⟨a, b⟩
        apply hcond1
        rw [Bool.and_eq_true, endsWith_port_iff (by decide) hds, decide_eq_true_iff]
        exact ⟨a, b⟩
      split
      · next hcond2 =>
        rw [Bool.and_eq_true, endsWith_port_iff (by decide) hds,
          decide_eq_true_iff] at hcond2
        obtain ⟨hds443, hsch443⟩ := hcond2
        subst hds443
        rw [show (toLowerStr host ++ ':' :: ('4' :: '4' :: '3' :: [])).length - 4 =
            (toLowerStr host).length from by simp, take_append_self]
        rw [if_pos (Or.inr ⟨rfl, hsch443⟩)]
        rw [unparse_class hs2 hh2 hpath2]
        simp [mkClassUrl, show (("://").toList : PyStr) = ':' :: '/' :: '/' :: [] from rfl]
      · next hcond2 =>
        have h443 : ¬(ds = ('4' :: '4' :: '3' :: []) ∧
            toLowerStr sch = ("https").toList) := by
          intro ⟨a, b⟩
          apply hcond2
          rw [Bool.and_eq_true, endsWith_port_iff (by decide) hds, decide_eq_true_iff]
          exact ⟨a, b⟩
        rw [if_neg (not_or.mpr ⟨h80, h443⟩)]
        rw [unparse_class hs2
          (show (toLowerStr host ++ ':' :: ds : PyStr) ≠ [] from by simp) hpath2]
        simp [mkClassUrl, show (("://").toList : PyStr) = ':' :: '/' :: '/' :: [] from rfl]

theorem normalize_class_idem {sch host port path q : PyStr}
    (hs : sch ≠ []) (hsa : ∀ c ∈ sch, c.isAlpha = true)
    (hh : host ≠ []) (hhc : ∀ c ∈ host, hostChar c = true)
    (hp : port = [] ∨ ∃ ds, port = ':' :: ds ∧ ∀ c ∈ ds, c.isDigit = true)
    (hpa : path = [] ∨ ∃ p2, path = '/' :: p2)
    (hpc : ∀ c ∈ path, pathChar c = true)
    (hqc : ∀ c ∈ q, queryChar c = true) :
    normalizeUrl (normalizeUrl (mkClassUrl sch host port path q)) =
      normalizeUrl (mkClassUrl sch host port path q) := by
  rw [normalize_class hs hsa hh hhc hp hpa hpc hqc]
  have hsa2 : ∀ c ∈ toLowerStr sch, c.isAlpha = true := by
    intro c hc
    obtain ⟨d, hd, rfl⟩ := List.mem_map.1 hc
    exact isAlpha_toLower (hsa d hd)
  have hhc2 : ∀ c ∈ toLowerStr host, hostChar c = true := by
    intro c hc
    obtain ⟨d, hd, rfl⟩ := List.mem_map.1 hc
    exact hostChar_toLower (hhc d hd)
  have hs2 : toLowerStr sch ≠ [] := fun hx => hs (toLowerStr_eq_nil_iff.mp hx)
  have hh2 : toLowerStr host ≠ [] := fun hx => hh (toLowerStr_eq_nil_iff.mp hx)
  have hp2 : portAfterStrip (toLowerStr sch) port = [] ∨
      ∃ ds, portAfterStrip (toLowerStr sch) port = ':' :: ds ∧
        ∀ c ∈ ds, c.isDigit = true := portAfterStrip_class hp
  have hpath2 : ∃ t, stripTrailingSlash
      (collapseSlashes (if path = [] then ['/'] else path)) = '/' :: t := by
    obtain ⟨t0, h0⟩ : ∃ t0, (if path = [] then ['/'] else path) = '/' :: t0 := by
      rcases hpa with rfl | ⟨p2, rfl⟩
      · exact ⟨[], by simp⟩
      · exact ⟨p2, by rw [if_neg (by simp)]⟩
    rw [h0]
    obtain ⟨t1, h1⟩ := collapseSlashes_cons '/' t0
    rw [h1]
    exact stripTrailingSlash_head
  obtain ⟨t2, ht2⟩ := hpath2
  have hpa2 : stripTrailingSlash (collapseSlashes (if path = [] then ['/'] else path)) = [] ∨
      ∃ p2, stripTrailingSlash (collapseSlashes (if path = [] then ['/'] else path)) =
        '/' :: p2 := Or.inr ⟨t2, ht2⟩
  have hpc2 : ∀ c ∈ stripTrailingSlash
      (collapseSlashes (if path = [] then ['/'] else path)), pathChar c = true := by
    intro c hc
    have hc1 := mem_stripTrailingSlash hc
    rcases mem_collapseRunsAux hc1 with hc2 | rfl
    · rcases hpa with rfl | ⟨p2, rfl⟩
      · rw [if_pos rfl] at hc2
        rcases List.mem_singleton.1 hc2 with rfl
        decide
      · rw [if_neg (by simp)] at hc2
        exact hpc c hc2
    · decide
  rw [normalize_class hs2 hsa2 hh2 hhc2 hp2 hpa2 hpc2 hqc]
  have hpafix : stripTrailingSlash (collapseSlashes
      (if stripTrailingSlash (collapseSlashes (if path = [] then ['/'] else path)) = []
       then ['/']
       else stripTrailingSlash (collapseSlashes (if path = [] then ['/'] else path)))) =
      stripTrailingSlash (collapseSlashes (if path = [] then ['/'] else path)) := by
    rw [if_neg (show ¬(stripTrailingSlash
        (collapseSlashes (if path = [] then ['/'] else path)) = []) from by
      rw [ht2]
      simp)]
    rw [collapseSlashes_eq_self (slashGood_stripTrailingSlash (collapseSlashes_good _))]
    exact stripTrailingSlash_noSlashEnd (collapseSlashes_good _)
  have hpasidem : portAfterStrip (toLowerStr sch)
      (portAfterStrip (toLowerStr sch) port) =
      portAfterStrip (toLowerStr sch) port := portAfterStrip_idem hp
  simp only [toLowerStr_idem, hpasidem, hpafix]

/-- C6 as stated is false: normalization is not idempotent in general.
`_normalize_url("https://h:443:443")` strips the trailing `:443` and yields
`"https://h:443/"`; normalizing that output strips the remaining `:443`
and yields `"https://h/"`. -/
theorem c6_counterexample :
    normalizeUrl (normalizeUrl (("https://h:443:443").toList)) ≠
      normalizeUrl (("https://h:443:443").toList) := by decide

/-- C6 (amended): both concrete normalizer equations of the spec hold
(`"HTTP://Example.com:80/a//b/"` maps to `"http://example.com/a/b"` and
`"https://x.com/p#frag"` maps to `"https://x.com/p"`), and normalization
is idempotent on well-formed URLs `scheme://host[:digits][/path][?query]`
(alphabetic scheme; host made of letters, digits, dots, hyphens; slash-led
path of URL-safe characters; printable query without `#`) — though not on
arbitrary strings, see the counterexample. -/
theorem c6_normalize_url :
    normalizeUrl (("HTTP://Example.com:80/a//b/").toList) =
      ("http://example.com/a/b").toList ∧
    normalizeUrl (("https://x.com/p#frag").toList) = ("https://x.com/p").toList ∧
    (∀ sch host port path q : PyStr,
      sch ≠ [] → (∀ c ∈ sch, c.isAlpha = true) →
      host ≠ [] → (∀ c ∈ host, hostChar c = true) →
      (port = [] ∨ ∃ ds, port = ':' :: ds ∧ ∀ c ∈ ds, c.isDigit = true) →
      (path = [] ∨ ∃ p2, path = '/' :: p2) →
      (∀ c ∈ path, pathChar c = true) →
      (∀ c ∈ q, queryChar c = true) →
      normalizeUrl (normalizeUrl (mkClassUrl sch host port path q)) =
        normalizeUrl (mkClassUrl sch host port path q)) :=
  ⟨by decide, by decide, fun sch host port path q hs hsa hh hhc hp hpa hpc hqc =>
    normalize_class_idem hs hsa hh hhc hp hpa hpc hqc⟩

theorem c6_normalize_url_witness :
    normalizeUrl (normalizeUrl (mkClassUrl (("HTTP").toList) (("Example.com").toList)
        ((":8080").toList) (("/a//b/").toList) (("x=1&y=2").toList))) =
      normalizeUrl (mkClassUrl (("HTTP").toList) (("Example.com").toList)
        ((":8080").toList) (("/a//b/").toList) (("x=1&y=2").toList)) :=
  c6_normalize_url.2.2 _ _ _ _ _ (by decide) (by decide) (by decide) (by decide)
    (Or.inr ⟨("8080").toList, by decide, by decide⟩)
    (Or.inr ⟨("a//b/").toList, by decide⟩)
    (by decide) (by decide)

